import Mathlib

/-!
Verification development for the llmjsonrepair library: a recovery parser
that repairs malformed JSON text (package pkg: jsonrepair.go and the core
parser file with parser, Parse, parseJSON, parseObject, parseArray,
parseString, parseNumber, parseBooleanOrNull, jsonContext).

The Go source is embedded shallowly:

* The input []rune buffer is a List Char; the mutable cursor p.index is
  threaded explicitly as a Nat argument and returned with each result.
* The context stack p.context is passed as a read-only parameter: in the
  source it is mutated only by balanced push/defer-pop pairs in
  parseObject/parseArray plus in-place overwrites of the pushed top element
  inside the object loop, so every function returns with the stack it was
  called with; a parameter whose head is the stack top (the source appends
  the top at the end of a slice) is an equivalent rendering.
* Every parser function in the source returns a nil error on every return
  path; the error result is modelled as an Option String component so the
  error-handling branches of the callers can be written exactly as in the
  source, and the fact that it is always none is proved, not assumed.
* Go dynamic values (interface{}) are modelled by the closed inductive
  GoVal; the untyped nil interface (also the parse of the literal null) is
  GoVal.nil.  float64 results are modelled exactly as a decimal
  mantissa/exponent pair (no IEEE rounding; no property proved here
  inspects a float's numeric value).
* Functions from the Go standard library (unicode.IsSpace, unicode.IsDigit,
  unicode.IsLetter, strconv.ParseInt, strconv.ParseFloat, strings.HasPrefix,
  strings.TrimRight, encoding/json) are external to this repository; they
  are modelled from their documented behaviour, as noted at each model.

All recursive functions are defined by well-founded recursion on the
remaining input (no fuel, no partial functions): their acceptance by Lean
is the machine-checked termination argument for the parser.
-/

set_option maxHeartbeats 4000000
set_option maxRecDepth 8000

namespace JsonRepair

/-- Model of Go unicode.IsSpace: the 6 ASCII space characters together with
the Unicode White_Space code points (the exact set Go tests). -/
def isSpaceGo (c : Char) : Bool :=
  decide ((0x09 ≤ c.toNat ∧ c.toNat ≤ 0x0D) ∨ c.toNat = 0x20 ∨ c.toNat = 0x85 ∨
    c.toNat = 0xA0 ∨ c.toNat = 0x1680 ∨ (0x2000 ≤ c.toNat ∧ c.toNat ≤ 0x200A) ∨
    c.toNat = 0x2028 ∨ c.toNat = 0x2029 ∨ c.toNat = 0x202F ∨ c.toNat = 0x205F ∨
    c.toNat = 0x3000)

/-- Code-point ranges of the Unicode decimal-digit category Nd, transcribed
from the range table behind Go unicode.IsDigit. -/
def ndRanges : List (Nat × Nat) :=
  [(0x30, 0x39), (0x660, 0x669), (0x6F0, 0x6F9), (0x7C0, 0x7C9),
   (0x966, 0x96F), (0x9E6, 0x9EF), (0xA66, 0xA6F), (0xAE6, 0xAEF),
   (0xB66, 0xB6F), (0xBE6, 0xBEF), (0xC66, 0xC6F), (0xCE6, 0xCEF),
   (0xD66, 0xD6F), (0xDE6, 0xDEF), (0xE50, 0xE59), (0xED0, 0xED9),
   (0xF20, 0xF29), (0x1040, 0x1049), (0x1090, 0x1099), (0x17E0, 0x17E9),
   (0x1810, 0x1819), (0x1946, 0x194F), (0x19D0, 0x19D9), (0x1A80, 0x1A89),
   (0x1A90, 0x1A99), (0x1B50, 0x1B59), (0x1BB0, 0x1BB9), (0x1C40, 0x1C49),
   (0x1C50, 0x1C59), (0xA620, 0xA629), (0xA8D0, 0xA8D9), (0xA900, 0xA909),
   (0xA9D0, 0xA9D9), (0xA9F0, 0xA9F9), (0xAA50, 0xAA59), (0xABF0, 0xABF9),
   (0xFF10, 0xFF19), (0x104A0, 0x104A9), (0x10D30, 0x10D39),
   (0x11066, 0x1106F), (0x110F0, 0x110F9), (0x11136, 0x1113F),
   (0x111D0, 0x111D9), (0x112F0, 0x112F9), (0x11450, 0x11459),
   (0x114D0, 0x114D9), (0x11650, 0x11659), (0x116C0, 0x116C9),
   (0x11730, 0x11739), (0x118E0, 0x118E9), (0x11950, 0x11959),
   (0x11C50, 0x11C59), (0x11D50, 0x11D59), (0x11DA0, 0x11DA9),
   (0x16A60, 0x16A69), (0x16AC0, 0x16AC9), (0x16B50, 0x16B59),
   (0x1D7CE, 0x1D7FF), (0x1E140, 0x1E149), (0x1E2F0, 0x1E2F9),
   (0x1E950, 0x1E959), (0x1FBF0, 0x1FBF9)]

/-- Model of Go unicode.IsDigit: membership of the Unicode category Nd.
Note this is wider than the ASCII digits: it holds, for instance, of the
Arabic-Indic digits U+0660..U+0669. -/
def isDigitGo (c : Char) : Bool :=
  ndRanges.any (fun r => decide (r.1 ≤ c.toNat ∧ c.toNat ≤ r.2))

/-- Model of Go unicode.IsLetter, restricted to the Latin-1 letter ranges
(ASCII letters plus the Latin-1 supplement letters).  unicode.IsLetter is
true of every code point of category L; no property proved in this
development depends on the letter-ness of a code point outside Latin-1, so
the restriction is harmless here. -/
def isLetterGo (c : Char) : Bool :=
  decide ((0x41 ≤ c.toNat ∧ c.toNat ≤ 0x5A) ∨ (0x61 ≤ c.toNat ∧ c.toNat ≤ 0x7A) ∨
    c.toNat = 0xAA ∨ c.toNat = 0xB5 ∨ c.toNat = 0xBA ∨
    (0xC0 ≤ c.toNat ∧ c.toNat ≤ 0xD6) ∨ (0xD8 ≤ c.toNat ∧ c.toNat ≤ 0xF6) ∨
    (0xF8 ≤ c.toNat ∧ c.toNat ≤ 0xFF))

/-- The character class scanned by parseNumber: unicode.IsDigit plus the
four punctuation characters of its loop condition. -/
def numChar (c : Char) : Bool :=
  isDigitGo c || decide (c = '.') || decide (c = '-') || decide (c = 'e') ||
    decide (c = 'E')

/-- A recovered dynamic JSON value (the Go interface{} results).  GoVal.nil
is the nil interface, which is both the no-value result and the parse of the
literal null; GoVal.float stores the exact decimal value recovered by the
ParseFloat model as mantissa times ten to the exponent. -/
inductive GoVal where
  | nil
  | bool (b : Bool)
  | int (n : Int)
  | float (mant : Int) (exp : Int)
  | str (s : String)
  | arr (xs : List GoVal)
  | obj (kvs : List (String × GoVal))

/-- True exactly of the nil interface value (the Go comparison v != nil is
the negation of this). -/
def GoVal.isNil : GoVal → Bool
  | .nil => true
  | _ => false

/-- Go map insertion obj[key] = value on an association-list rendering of
map[string]interface{}: overwrite the existing binding of the key if there
is one (last write wins), otherwise append.  A Go map is unordered; the
insertion order used here is a canonical choice. -/
def mapInsert : List (String × GoVal) → String → GoVal → List (String × GoVal)
  | [], k, v => [(k, v)]
  | (k1, v1) :: rest, k, v =>
      if k1 = k then (k, v) :: rest else (k1, v1) :: mapInsert rest k v

/-- The parser context markers (the source constants inArray, inObjectKey,
inObjectValue of type contextValue). -/
inductive contextValue where
  | inArray
  | inObjectKey
  | inObjectValue
deriving DecidableEq

open contextValue

/-- The parser structure: the rune buffer, the cursor and the context stack
(the diagnostic logger has no effect on any result and is omitted). -/
structure parserSt where
  jsonStr : List Char
  index : Nat
  context : List contextValue

/-- NewParser: fresh parser at cursor 0 with an empty context stack. -/
def NewParser (jsonStr : String) : parserSt :=
  { jsonStr := jsonStr.toList, index := 0, context := [] }

/-- Digit run to a natural number (most significant first). -/
def digitsToNat (cs : List Char) : Nat :=
  cs.foldl (fun a c => a * 10 + (c.toNat - 0x30)) 0

/-- ASCII digit test (the digits strconv accepts in base 10). -/
def asciiDigit (c : Char) : Bool := decide ('0' ≤ c ∧ c ≤ '9')

/-- Model of Go strconv.ParseInt(s, 10, 64), from its documentation: an
optional sign followed by one or more ASCII digits and nothing else, with
the value required to fit in int64; any other input (including an
out-of-range value, which Go reports as ErrRange) yields an error, modelled
as none. -/
def goParseInt64 (cs : List Char) : Option Int :=
  let signDigits : Bool × List Char :=
    match cs with
    | '-' :: t => (true, t)
    | '+' :: t => (false, t)
    | _ => (false, cs)
  let neg := signDigits.1
  let ds := signDigits.2
  if ds = [] ∨ ¬ ds.all asciiDigit then none
  else
    let v : Int := if neg then -(digitsToNat ds : Int) else (digitsToNat ds : Int)
    if v < -(2 ^ 63) ∨ (2 ^ 63 - 1 : Int) < v then none else some v

/-- The least decimal magnitude that strconv.ParseFloat reports as
out of range for float64 (the rounding boundary to infinity,
2^1024 - 2^970). -/
def floatMaxBound : Nat := 2 ^ 1024 - 2 ^ 970

/-- Does the exact decimal value m * 10^e overflow float64? -/
def floatOverflow (m : Int) (e : Int) : Bool :=
  if 0 ≤ e then decide (floatMaxBound ≤ m.natAbs * 10 ^ e.toNat)
  else decide (floatMaxBound * 10 ^ (-e).toNat ≤ m.natAbs)

/-- Model of Go strconv.ParseFloat(s, 64) restricted to what this parser can
feed it, from the documented decimal grammar: optional sign, a mantissa of
digits with an optional dot that must contain at least one digit, and an
optional exponent part that must contain at least one digit; nothing may
remain.  The result is the exact decimal value as a mantissa/exponent pair
(Go rounds to the nearest float64; no property proved here inspects the
numeric value, so the exact-decimal rendering is adequate).  A value at or
beyond the float64 overflow boundary is an error (ErrRange), modelled as
none. -/
def goParseFloat64 (cs : List Char) : Option (Int × Int) :=
  let signRest : Bool × List Char :=
    match cs with
    | '-' :: t => (true, t)
    | '+' :: t => (false, t)
    | _ => (false, cs)
  let neg := signRest.1
  let r1 := signRest.2
  let ip := r1.takeWhile asciiDigit
  let r2 := r1.drop ip.length
  let fracRest : Option (List Char) × List Char :=
    match r2 with
    | '.' :: t => (some (t.takeWhile asciiDigit), t.drop (t.takeWhile asciiDigit).length)
    | _ => (none, r2)
  let fp := (fracRest.1).getD []
  let r3 := fracRest.2
  if ip = [] ∧ fp = [] then none
  else
    let expPart : Option Int × List Char :=
      match r3 with
      | 'e' :: t =>
          (match t with
           | '-' :: u => (if u.takeWhile asciiDigit = [] then none else
               some (-(digitsToNat (u.takeWhile asciiDigit) : Int)),
               u.drop (u.takeWhile asciiDigit).length)
           | '+' :: u => (if u.takeWhile asciiDigit = [] then none else
               some (digitsToNat (u.takeWhile asciiDigit) : Int),
               u.drop (u.takeWhile asciiDigit).length)
           | _ => (if t.takeWhile asciiDigit = [] then none else
               some (digitsToNat (t.takeWhile asciiDigit) : Int),
               t.drop (t.takeWhile asciiDigit).length))
      | 'E' :: t =>
          (match t with
           | '-' :: u => (if u.takeWhile asciiDigit = [] then none else
               some (-(digitsToNat (u.takeWhile asciiDigit) : Int)),
               u.drop (u.takeWhile asciiDigit).length)
           | '+' :: u => (if u.takeWhile asciiDigit = [] then none else
               some (digitsToNat (u.takeWhile asciiDigit) : Int),
               u.drop (u.takeWhile asciiDigit).length)
           | _ => (if t.takeWhile asciiDigit = [] then none else
               some (digitsToNat (t.takeWhile asciiDigit) : Int),
               t.drop (t.takeWhile asciiDigit).length))
      | _ => (some 0, r3)
  match expPart.1 with
    | none => none
    | some ex =>
        if expPart.2 ≠ [] then none
        else
          let mag : Nat := digitsToNat (ip ++ fp)
          let m : Int := if neg then -(mag : Int) else (mag : Int)
          let de : Int := ex - (fp.length : Int)
          if floatOverflow m de then none else some (m, de)

/-- skipWhitespace: advance the cursor past every unicode.IsSpace character
(the getChar bounds check is the index-in-range test). -/
def skipWhitespace (s : List Char) (i : Nat) : Nat :=
  if h : i < s.length then
    if isSpaceGo s[i] then skipWhitespace s (i + 1) else i
  else i
termination_by s.length - i

theorem skipWhitespace_le (s : List Char) (i : Nat) : i ≤ skipWhitespace s i := by
  induction i using skipWhitespace.induct (s := s) with
  | case1 i h hsp ih => rw [skipWhitespace]; simp only [h, hsp, dif_pos, if_true]; omega
  | case2 i h hsp => rw [skipWhitespace]; simp [h, hsp]
  | case3 i h => rw [skipWhitespace]; simp [h]

theorem skipWhitespace_le_length (s : List Char) (i : Nat) (hi : i ≤ s.length) :
    skipWhitespace s i ≤ s.length := by
  induction i using skipWhitespace.induct (s := s) with
  | case1 i h hsp ih =>
      rw [skipWhitespace]; simp only [h, hsp, dif_pos, if_true]; exact ih (by omega)
  | case2 i h hsp => rw [skipWhitespace]; simp [h, hsp]; omega
  | case3 i h => rw [skipWhitespace]; simp [h]; omega

theorem skipWhitespace_stop (s : List Char) (i : Nat) (c : Char)
    (hc : s[skipWhitespace s i]? = some c) : isSpaceGo c = false := by
  induction i using skipWhitespace.induct (s := s) with
  | case1 i h hsp ih =>
      rw [skipWhitespace, dif_pos h, if_pos hsp] at hc
      exact ih hc
  | case2 i h hsp =>
      rw [skipWhitespace, dif_pos h, if_neg hsp] at hc
      have hg : s[i]? = some s[i] := List.getElem?_eq_getElem h
      rw [hg] at hc
      cases hc
      simpa using hsp
  | case3 i h =>
      rw [skipWhitespace, dif_neg h] at hc
      have hg : s[i]? = none := List.getElem?_eq_none (by omega)
      simp [hg] at hc

theorem skipWhitespace_id (s : List Char) (i : Nat) (c : Char)
    (hc : s[i]? = some c) (hsp : isSpaceGo c = false) : skipWhitespace s i = i := by
  have hlt : i < s.length := (List.getElem?_eq_some_iff.mp hc).1
  have hg : s[i] = c := by
    have := List.getElem?_eq_getElem hlt
    rw [this] at hc; exact Option.some.inj hc
  rw [skipWhitespace]
  simp [hlt, hg, hsp]

theorem skipWhitespace_ge_len (s : List Char) (i : Nat) (h : s.length ≤ i) :
    skipWhitespace s i = i := by
  rw [skipWhitespace]
  simp [show ¬ i < s.length by omega]

theorem skipWhitespace_idem (s : List Char) (i : Nat) :
    skipWhitespace s (skipWhitespace s i) = skipWhitespace s i := by
  by_cases h : skipWhitespace s i < s.length
  · have hc : s[skipWhitespace s i]? = some s[skipWhitespace s i] :=
      List.getElem?_eq_getElem h
    exact skipWhitespace_id s _ _ hc (skipWhitespace_stop s i _ hc)
  · exact skipWhitespace_ge_len s _ (by omega)

theorem skipWhitespace_all_space (s : List Char) (i : Nat)
    (hall : ∀ c ∈ s, isSpaceGo c = true) (hi : i ≤ s.length) :
    skipWhitespace s i = s.length := by
  induction i using skipWhitespace.induct (s := s) with
  | case1 i h hsp ih =>
      rw [skipWhitespace]; simp only [h, hsp, dif_pos, if_true]; exact ih (by omega)
  | case2 i h hsp =>
      exact absurd (hall s[i] (List.getElem_mem h)) (by simpa using hsp)
  | case3 i h => rw [skipWhitespace]; simp [h]; omega

/-- The escape table of parseString, lines case by case: the four characters
that map to themselves, the five control-character escapes, and the default
branch that keeps the backslash and the escaped character. -/
def escapeChar (c : Char) : List Char :=
  if c = '"' ∨ c = '\\' ∨ c = '/' ∨ c = '\'' then [c]
  else if c = 'b' then ['\x08']
  else if c = 'f' then ['\x0C']
  else if c = 'n' then ['\n']
  else if c = 'r' then ['\r']
  else if c = 't' then ['\t']
  else ['\\', c]

/-- The context-directed termination test of parseString for a quote-missing
string: with an object-key context on top terminate only at a colon, with an
object-value or array context at a comma or a closing brace or bracket, and
with an empty stack at any of the four. -/
def missingStop (ctx : List contextValue) (c : Char) : Bool :=
  match ctx with
  | inObjectKey :: _ => decide (c = ':')
  | inObjectValue :: _ => decide (c = ',' ∨ c = '}' ∨ c = ']')
  | inArray :: _ => decide (c = ',' ∨ c = '}' ∨ c = ']')
  | [] => decide (c = ',' ∨ c = '}' ∨ c = ']' ∨ c = ':')

theorem missingStop_mem (ctx : List contextValue) (c : Char)
    (h : missingStop ctx c = true) : c = ',' ∨ c = '}' ∨ c = ']' ∨ c = ':' := by
  cases ctx with
  | nil => simpa [missingStop] using h
  | cons t r => cases t <;> simp [missingStop] at h <;> tauto

/-- The scan loop of parseString (its for loop), accumulating the built
string: escape processing first, then the closing-quote test for a quoted
string, then the context-directed stop test for a quote-missing string
(which leaves the stopping character unconsumed), otherwise take the
character.  A backslash at the end of input is consumed before the scan
stops (the source increments the index and then breaks). -/
def parseStringLoop (s : List Char) (ctx : List contextValue)
    (missingQuotes : Bool) (startQuote : Char) (acc : List Char) (i : Nat) :
    List Char × Nat :=
  if h : i < s.length then
    if s[i] = '\\' then
      if h2 : i + 1 < s.length then
        parseStringLoop s ctx missingQuotes startQuote (acc ++ escapeChar s[i + 1]) (i + 2)
      else (acc, i + 1)
    else if missingQuotes = false ∧ s[i] = startQuote then (acc, i + 1)
    else if missingQuotes = true ∧ missingStop ctx s[i] = true then (acc, i)
    else parseStringLoop s ctx missingQuotes startQuote (acc ++ [s[i]]) (i + 1)
  else (acc, i)
termination_by s.length - i

theorem parseStringLoop_le (s : List Char) (ctx : List contextValue)
    (mq : Bool) (q : Char) (acc : List Char) (i : Nat) :
    i ≤ (parseStringLoop s ctx mq q acc i).2 := by
  induction acc, i using parseStringLoop.induct s ctx mq q with
  | case1 acc i h hc h2 ih =>
      rw [parseStringLoop, dif_pos h, if_pos hc, dif_pos h2]
      omega
  | case2 acc i h hc h2 =>
      rw [parseStringLoop, dif_pos h, if_pos hc, dif_neg h2]
      omega
  | case3 acc i h hc hq =>
      rw [parseStringLoop, dif_pos h, if_neg hc, if_pos hq]
      omega
  | case4 acc i h hc hq hm =>
      rw [parseStringLoop, dif_pos h, if_neg hc, if_neg hq, if_pos hm]
  | case5 acc i h hc hq hm ih =>
      rw [parseStringLoop, dif_pos h, if_neg hc, if_neg hq, if_neg hm]
      omega
  | case6 acc i h =>
      rw [parseStringLoop, dif_neg h]

theorem parseStringLoop_stuck (s : List Char) (ctx : List contextValue)
    (mq : Bool) (q : Char) (acc : List Char) (i : Nat)
    (h : (parseStringLoop s ctx mq q acc i).2 = i) :
    s.length ≤ i ∨ (mq = true ∧ ∃ c, s[i]? = some c ∧ missingStop ctx c = true) := by
  by_cases hl : i < s.length
  · right
    rw [parseStringLoop, dif_pos hl] at h
    by_cases hc : s[i] = '\\'
    · rw [if_pos hc] at h
      by_cases h2 : i + 1 < s.length
      · rw [dif_pos h2] at h
        have := parseStringLoop_le s ctx mq q (acc ++ escapeChar s[i + 1]) (i + 2)
        omega
      · rw [dif_neg h2] at h
        simp at h
    · rw [if_neg hc] at h
      by_cases hq : mq = false ∧ s[i] = q
      · rw [if_pos hq] at h
        simp at h
      · rw [if_neg hq] at h
        by_cases hm : mq = true ∧ missingStop ctx s[i] = true
        · exact ⟨hm.1, s[i], List.getElem?_eq_getElem hl, hm.2⟩
        · rw [if_neg hm] at h
          have := parseStringLoop_le s ctx mq q (acc ++ [s[i]]) (i + 1)
          omega
  · left; omega

theorem parseStringLoop_stop (s : List Char) (ctx : List contextValue)
    (q : Char) (acc : List Char) (i : Nat)
    (hlt : (parseStringLoop s ctx true q acc i).2 < s.length) :
    ∃ c, s[(parseStringLoop s ctx true q acc i).2]? = some c ∧
      missingStop ctx c = true := by
  induction acc, i using parseStringLoop.induct s ctx true q with
  | case1 acc i h hc h2 ih =>
      rw [parseStringLoop, dif_pos h, if_pos hc, dif_pos h2] at hlt ⊢
      exact ih hlt
  | case2 acc i h hc h2 =>
      rw [parseStringLoop, dif_pos h, if_pos hc, dif_neg h2] at hlt
      simp at hlt
      omega
  | case3 acc i h hc hq =>
      simp at hq
  | case4 acc i h hc hq hm =>
      rw [parseStringLoop, dif_pos h, if_neg hc, if_neg hq, if_pos hm]
      exact ⟨s[i], List.getElem?_eq_getElem h, hm.2⟩
  | case5 acc i h hc hq hm ih =>
      rw [parseStringLoop, dif_pos h, if_neg hc, if_neg hq, if_neg hm] at hlt ⊢
      exact ih hlt
  | case6 acc i h =>
      rw [parseStringLoop, dif_neg h] at hlt
      omega

theorem parseStringLoop_immediate (s : List Char) (ctx : List contextValue)
    (q : Char) (acc : List Char) (i : Nat) (c : Char)
    (hc : s[i]? = some c) (hm : missingStop ctx c = true) :
    parseStringLoop s ctx true q acc i = (acc, i) := by
  have hl : i < s.length := (List.getElem?_eq_some_iff.mp hc).1
  have hg : s[i] = c := by
    have := List.getElem?_eq_getElem hl
    rw [this] at hc; exact Option.some.inj hc
  have hbs : s[i] ≠ '\\' := by
    rw [hg]
    rcases missingStop_mem ctx c hm with h | h | h | h <;> rw [h] <;> decide
  rw [parseStringLoop, dif_pos hl, if_neg hbs,
    if_neg (by simp : ¬ ((true : Bool) = false ∧ s[i] = q)), if_pos ⟨rfl, hg ▸ hm⟩]

/-- Model of strings.TrimRight(s, chars) for the fixed cutset of space, tab,
newline and carriage return used by parseString on quote-missing strings. -/
def trimRight (cs : List Char) : List Char :=
  (cs.reverse.dropWhile (fun c => decide (c = ' ' ∨ c = '\t' ∨ c = '\n' ∨ c = '\r'))).reverse

/-- parseString: skip whitespace; a leading double or single quote starts a
quoted string scanned with that closing quote, anything else starts a
quote-missing string scanned under the context-directed stop test and
trimmed of trailing blanks; end of input yields the empty string.  The
error result is nil on every path, exactly as in the source. -/
def parseString (s : List Char) (ctx : List contextValue) (i : Nat) :
    String × Option String × Nat :=
  let j := skipWhitespace s i
  if h : j < s.length then
    if s[j] = '"' ∨ s[j] = '\'' then
      let r := parseStringLoop s ctx false s[j] [] (j + 1)
      (String.mk r.1, none, r.2)
    else
      let r := parseStringLoop s ctx true (Char.ofNat 0) [] j
      (String.mk (trimRight r.1), none, r.2)
  else ("", none, j)

theorem parseString_err (s : List Char) (ctx : List contextValue) (i : Nat) :
    (parseString s ctx i).2.1 = none := by
  simp only [parseString]
  split
  · split <;> rfl
  · rfl

theorem parseString_le (s : List Char) (ctx : List contextValue) (i : Nat) :
    i ≤ (parseString s ctx i).2.2 := by
  have hj := skipWhitespace_le s i
  simp only [parseString]
  split
  · split
    · have := parseStringLoop_le s ctx false s[skipWhitespace s i] []
        (skipWhitespace s i + 1)
      simpa using by omega
    · have := parseStringLoop_le s ctx true (Char.ofNat 0) [] (skipWhitespace s i)
      simpa using by omega
  · simpa using hj

theorem parseString_progress (s : List Char) (ctx : List contextValue) (i : Nat)
    (c : Char) (hc : s[i]? = some c) (hsp : isSpaceGo c = false)
    (h1 : c ≠ ',') (h2 : c ≠ '}') (h3 : c ≠ ']') (h4 : c ≠ ':') :
    i < (parseString s ctx i).2.2 := by
  have hj : skipWhitespace s i = i := skipWhitespace_id s i c hc hsp
  have hl : i < s.length := (List.getElem?_eq_some_iff.mp hc).1
  have hg : s[i] = c := by
    have := List.getElem?_eq_getElem hl
    rw [this] at hc; exact Option.some.inj hc
  simp only [parseString, hj]
  rw [dif_pos hl]
  split
  · have := parseStringLoop_le s ctx false s[i] [] (i + 1)
    simpa using by omega
  · have hle := parseStringLoop_le s ctx true (Char.ofNat 0) [] i
    have hne : (parseStringLoop s ctx true (Char.ofNat 0) [] i).2 ≠ i := by
      intro he
      rcases parseStringLoop_stuck s ctx true (Char.ofNat 0) [] i he with hll | ⟨_, d, hd, hms⟩
      · omega
      · rw [List.getElem?_eq_getElem hl] at hd
        cases hd
        rcases missingStop_mem ctx s[i] hms with h | h | h | h <;>
          rw [hg] at h <;> tauto
    simpa using by omega

theorem parseString_key_stuck (s : List Char) (rest : List contextValue) (i : Nat)
    (c : Char) (hc : s[i]? = some c) (hsp : isSpaceGo c = false)
    (hstuck : (parseString s (inObjectKey :: rest) i).2.2 = i) : c = ':' := by
  have hj : skipWhitespace s i = i := skipWhitespace_id s i c hc hsp
  have hl : i < s.length := (List.getElem?_eq_some_iff.mp hc).1
  have hg : s[i] = c := by
    have := List.getElem?_eq_getElem hl
    rw [this] at hc; exact Option.some.inj hc
  simp only [parseString, hj] at hstuck
  rw [dif_pos hl] at hstuck
  by_cases hq : s[i] = '"' ∨ s[i] = '\''
  · rw [if_pos hq] at hstuck
    simp at hstuck
    have := parseStringLoop_le s (inObjectKey :: rest) false s[i] [] (i + 1)
    omega
  · rw [if_neg hq] at hstuck
    simp at hstuck
    rcases parseStringLoop_stuck s (inObjectKey :: rest) true (Char.ofNat 0) [] i
        hstuck with hll | ⟨_, d, hd, hms⟩
    · omega
    · rw [List.getElem?_eq_getElem hl] at hd
      cases hd
      simp [missingStop] at hms
      rw [hg] at hms
      exact hms

/-- The scan loop of parseNumber: greedily take characters of the numChar
class. -/
def numLoop (s : List Char) (acc : List Char) (i : Nat) : List Char × Nat :=
  if h : i < s.length then
    if numChar s[i] then numLoop s (acc ++ [s[i]]) (i + 1) else (acc, i)
  else (acc, i)
termination_by s.length - i

theorem numLoop_eq (s : List Char) (acc : List Char) (i : Nat) :
    numLoop s acc i = (acc ++ (s.drop i).takeWhile numChar,
      i + ((s.drop i).takeWhile numChar).length) := by
  induction acc, i using numLoop.induct (s := s) with
  | case1 acc i h hn ih =>
      rw [numLoop, dif_pos h, if_pos hn, ih, List.drop_eq_getElem_cons h,
        List.takeWhile_cons, if_pos hn]
      simp
      omega
  | case2 acc i h hn =>
      rw [numLoop, dif_pos h, if_neg hn, List.drop_eq_getElem_cons h,
        List.takeWhile_cons, if_neg hn]
      simp
  | case3 acc i h =>
      rw [numLoop, dif_neg h, List.drop_eq_nil_of_le (by omega)]
      simp

/-- Classification of the captured run, following the specification of
parseNumber: a run holding a dot or an exponent letter goes to ParseFloat
and otherwise to ParseInt, and a run the conversion rejects is returned
verbatim as a string. -/
def numClassify (run : List Char) : GoVal :=
  if run.contains '.' ∨ run.contains 'e' ∨ run.contains 'E' then
    match goParseFloat64 run with
    | some me => .float me.1 me.2
    | none => .str (String.mk run)
  else
    match goParseInt64 run with
    | some n => .int n
    | none => .str (String.mk run)

/-- parseNumber: capture the maximal numChar run from the cursor, then
convert it, falling back to the run itself as a string when the conversion
fails.  The error result is nil on every path. -/
def parseNumber (s : List Char) (i : Nat) : GoVal × Option String × Nat :=
  let r := numLoop s [] i
  if r.1.contains '.' ∨ r.1.contains 'e' ∨ r.1.contains 'E' then
    match goParseFloat64 r.1 with
    | some me => (.float me.1 me.2, none, r.2)
    | none => (.str (String.mk r.1), none, r.2)
  else
    match goParseInt64 r.1 with
    | some n => (.int n, none, r.2)
    | none => (.str (String.mk r.1), none, r.2)

theorem parseNumber_eq (s : List Char) (i : Nat) :
    parseNumber s i = (numClassify ((s.drop i).takeWhile numChar), none,
      i + ((s.drop i).takeWhile numChar).length) := by
  simp only [parseNumber, numClassify, numLoop_eq, List.nil_append]
  split
  · split <;> rfl
  · split <;> rfl

theorem parseNumber_err (s : List Char) (i : Nat) :
    (parseNumber s i).2.1 = none := by
  rw [parseNumber_eq]

theorem parseNumber_le (s : List Char) (i : Nat) : i ≤ (parseNumber s i).2.2 := by
  rw [parseNumber_eq]
  simp

theorem parseNumber_progress (s : List Char) (i : Nat) (c : Char)
    (hc : s[i]? = some c) (hn : numChar c = true) : i < (parseNumber s i).2.2 := by
  have hl : i < s.length := (List.getElem?_eq_some_iff.mp hc).1
  have hg : s[i] = c := by
    have := List.getElem?_eq_getElem hl
    rw [this] at hc; exact Option.some.inj hc
  rw [parseNumber_eq]
  simp only [List.drop_eq_getElem_cons hl, List.takeWhile_cons, hg, hn, if_true]
  simp

/-- parseBooleanOrNull: test the literal prefixes true, false, null at the
cursor in that order, advancing by the literal length on a match, and
otherwise delegate to parseString (an unquoted token). -/
def parseBooleanOrNull (s : List Char) (ctx : List contextValue) (i : Nat) :
    GoVal × Option String × Nat :=
  if "true".toList.isPrefixOf (s.drop i) then (.bool true, none, i + 4)
  else if "false".toList.isPrefixOf (s.drop i) then (.bool false, none, i + 5)
  else if "null".toList.isPrefixOf (s.drop i) then (.nil, none, i + 4)
  else
    let r := parseString s ctx i
    (.str r.1, r.2.1, r.2.2)

theorem parseBooleanOrNull_err (s : List Char) (ctx : List contextValue) (i : Nat) :
    (parseBooleanOrNull s ctx i).2.1 = none := by
  simp only [parseBooleanOrNull]
  split
  · rfl
  · split
    · rfl
    · split
      · rfl
      · simpa using parseString_err s ctx i

theorem parseBooleanOrNull_le (s : List Char) (ctx : List contextValue) (i : Nat) :
    i ≤ (parseBooleanOrNull s ctx i).2.2 := by
  simp only [parseBooleanOrNull]
  split
  · simp
  · split
    · simp
    · split
      · simp
      · simpa using parseString_le s ctx i

theorem parseBooleanOrNull_progress (s : List Char) (ctx : List contextValue)
    (i : Nat) (c : Char) (hc : s[i]? = some c)
    (hl : c = 't' ∨ c = 'f' ∨ c = 'n') :
    i < (parseBooleanOrNull s ctx i).2.2 := by
  simp only [parseBooleanOrNull]
  split
  · simp
  · split
    · simp
    · split
      · simp
      · have : i < (parseString s ctx i).2.2 := by
          rcases hl with h | h | h <;> subst h <;>
            exact parseString_progress s ctx i _ hc (by decide) (by decide)
              (by decide) (by decide) (by decide)
        simpa using this

/-- The value-failure fallback of parseObject (lines: if err != nil, value
becomes the empty string): the parsed value when value parsing succeeded,
the empty string when it reported an error. -/
def valueFallback (e : Option String) (v : GoVal) : GoVal :=
  match e with
  | some _ => .str ""
  | none => v

theorem objKey_advance (s : List Char) (rest : List contextValue) (i i1 : Nat)
    (hjl : skipWhitespace s i < s.length)
    (hi1 : (parseString s (inObjectKey :: rest) (skipWhitespace s i)).2.2 = i1) :
    skipWhitespace s i + 1 ≤
      (if s[skipWhitespace s i1]? = some ':' then skipWhitespace s i1 + 1
       else skipWhitespace s i1) := by
  have hcj : s[skipWhitespace s i]? = some s[skipWhitespace s i] :=
    List.getElem?_eq_getElem hjl
  have hnsp : isSpaceGo s[skipWhitespace s i] = false := skipWhitespace_stop s i _ hcj
  have hle : skipWhitespace s i ≤ i1 := by
    have h0 := parseString_le s (inObjectKey :: rest) (skipWhitespace s i)
    omega
  rcases Nat.eq_or_lt_of_le hle with he | hlt
  · have hcolon : s[skipWhitespace s i] = ':' :=
      parseString_key_stuck s rest (skipWhitespace s i) _ hcj hnsp (by omega)
    have hws : skipWhitespace s i1 = skipWhitespace s i := by
      rw [← he, skipWhitespace_id s _ _ hcj hnsp]
    have hopt : s[skipWhitespace s i1]? = some ':' := by
      rw [hws, hcj, hcolon]
    rw [if_pos hopt, hws]
  · have h1 := skipWhitespace_le s i1
    split <;> omega

mutual

/-- parseJSON, the top-level dispatcher: skip whitespace, then dispatch on
the current character to the object, array, string, number or boolean/null
parser; a letter with a non-empty context stack starts an unquoted string;
end of input yields the nil no-value result; anything else advances the
cursor one code point and retries.  The packaged invariant carries cursor
monotonicity, the strict advance past the post-whitespace position whenever
one exists, and the nil error result. -/
def parseJSON (s : List Char) (ctx : List contextValue) (i : Nat) :
    { r : GoVal × Option String × Nat //
      i ≤ r.2.2 ∧ r.2.1 = none ∧
      (skipWhitespace s i < s.length → skipWhitespace s i < r.2.2) } :=
  if h : skipWhitespace s i < s.length then
    if s[skipWhitespace s i] = '{' then
      match parseObject s ctx (skipWhitespace s i + 1) with
      | ⟨(kvs, e, k), hp⟩ => ⟨(.obj kvs, e, k), by
          have hle := skipWhitespace_le s i
          have hp1 : skipWhitespace s i + 1 ≤ k := hp.1
          exact ⟨by show i ≤ k; omega, hp.2,
            fun _ => by show skipWhitespace s i < k; omega⟩⟩
    else if s[skipWhitespace s i] = '[' then
      match parseArray s ctx (skipWhitespace s i + 1) with
      | ⟨(xs, e, k), hp⟩ => ⟨(.arr xs, e, k), by
          have hle := skipWhitespace_le s i
          have hp1 : skipWhitespace s i + 1 ≤ k := hp.1
          exact ⟨by show i ≤ k; omega, hp.2,
            fun _ => by show skipWhitespace s i < k; omega⟩⟩
    else if hq : s[skipWhitespace s i] = '"' ∨ s[skipWhitespace s i] = '\'' then
      ⟨(.str (parseString s ctx (skipWhitespace s i)).1,
        (parseString s ctx (skipWhitespace s i)).2.1,
        (parseString s ctx (skipWhitespace s i)).2.2), by
          have hle := skipWhitespace_le s i
          have hcj : s[skipWhitespace s i]? = some s[skipWhitespace s i] :=
            List.getElem?_eq_getElem h
          have hpr : skipWhitespace s i < (parseString s ctx (skipWhitespace s i)).2.2 := by
            rcases hq with hq | hq <;>
              exact parseString_progress s ctx _ _ (hq ▸ hcj) (by decide) (by decide)
                (by decide) (by decide) (by decide)
          exact ⟨by show i ≤ (parseString s ctx (skipWhitespace s i)).2.2; omega,
            parseString_err s ctx _, fun _ => hpr⟩⟩
    else if hd : isDigitGo s[skipWhitespace s i] = true ∨ s[skipWhitespace s i] = '-' then
      ⟨parseNumber s (skipWhitespace s i), by
          have hle := skipWhitespace_le s i
          have hcj : s[skipWhitespace s i]? = some s[skipWhitespace s i] :=
            List.getElem?_eq_getElem h
          have hpr : skipWhitespace s i < (parseNumber s (skipWhitespace s i)).2.2 := by
            apply parseNumber_progress s _ _ hcj
            rcases hd with hd | hd
            · simp [numChar, hd]
            · simp [numChar, hd]
          exact ⟨by omega, parseNumber_err s _, fun _ => hpr⟩⟩
    else if ht : s[skipWhitespace s i] = 't' ∨ s[skipWhitespace s i] = 'f' ∨
        s[skipWhitespace s i] = 'n' then
      ⟨parseBooleanOrNull s ctx (skipWhitespace s i), by
          have hle := skipWhitespace_le s i
          have hcj : s[skipWhitespace s i]? = some s[skipWhitespace s i] :=
            List.getElem?_eq_getElem h
          have hpr := parseBooleanOrNull_progress s ctx _ _ hcj ht
          exact ⟨by omega, parseBooleanOrNull_err s ctx _, fun _ => hpr⟩⟩
    else if hl : isLetterGo s[skipWhitespace s i] = true then
      match hctx : ctx with
      | _ :: _ =>
        ⟨(.str (parseString s ctx (skipWhitespace s i)).1,
          (parseString s ctx (skipWhitespace s i)).2.1,
          (parseString s ctx (skipWhitespace s i)).2.2), by
            have hle := skipWhitespace_le s i
            have hcj : s[skipWhitespace s i]? = some s[skipWhitespace s i] :=
              List.getElem?_eq_getElem h
            have hnsp : isSpaceGo s[skipWhitespace s i] = false :=
              skipWhitespace_stop s i _ hcj
            have hpr : skipWhitespace s i <
                (parseString s ctx (skipWhitespace s i)).2.2 := by
              apply parseString_progress s ctx _ _ hcj hnsp <;>
                (intro hbad; rw [hbad] at hl; exact absurd hl (by decide))
            exact ⟨by show i ≤ (parseString s ctx (skipWhitespace s i)).2.2; omega,
              parseString_err s ctx _, fun _ => hpr⟩⟩
      | [] =>
        match parseJSON s ctx (skipWhitespace s i + 1) with
        | ⟨r, hr⟩ => ⟨r, by
            have hle := skipWhitespace_le s i
            exact ⟨by omega, hr.2.1, fun _ => by omega⟩⟩
    else
      match parseJSON s ctx (skipWhitespace s i + 1) with
      | ⟨r, hr⟩ => ⟨r, by
          have hle := skipWhitespace_le s i
          exact ⟨by omega, hr.2.1, fun _ => by omega⟩⟩
  else
    ⟨(.nil, none, skipWhitespace s i), by
      have hle := skipWhitespace_le s i
      exact ⟨hle, rfl, fun hx => absurd hx h⟩⟩
termination_by 3 * (s.length - i)
decreasing_by
  all_goals (have hle := skipWhitespace_le s i; omega)

/-- The for loop of parseObject.  rest is the context stack below the entry
that parseObject pushed; the loop passes inObjectKey :: rest to the key
parse and inObjectValue :: rest to the value parse, rendering the in-place
overwrites of the stack top.  The error-checking branch after the key parse
is written exactly as in the source although parseString never reports an
error.  The closing brace is left for parseObject itself to consume. -/
def parseObjectLoop (s : List Char) (rest : List contextValue)
    (obj : List (String × GoVal)) (i : Nat) :
    { r : List (String × GoVal) × Nat // i ≤ r.2 } :=
  if h : skipWhitespace s i < s.length then
    if s[skipWhitespace s i] = '}' then
      ⟨(obj, skipWhitespace s i), skipWhitespace_le s i⟩
    else if s[skipWhitespace s i] = ',' then
      match parseObjectLoop s rest obj (skipWhitespace s i + 1) with
      | ⟨r, hle⟩ => ⟨r, by have := skipWhitespace_le s i; omega⟩
    else
      match hk : parseString s (inObjectKey :: rest) (skipWhitespace s i) with
      | (key, ek, i1) =>
        have hle1 : i ≤ skipWhitespace s i := skipWhitespace_le s i
        have hkey : skipWhitespace s i ≤ i1 := by
          have h0 := parseString_le s (inObjectKey :: rest) (skipWhitespace s i)
          rw [hk] at h0
          exact h0
        have hle2 : i1 ≤ skipWhitespace s i1 := skipWhitespace_le s i1
        if ek.isSome = true then
          if s[skipWhitespace s i1]? = some '}' then
            ⟨(obj, skipWhitespace s i1), by
              show i ≤ skipWhitespace s i1
              omega⟩
          else
            match parseObjectLoop s rest obj (skipWhitespace s i1 + 1) with
            | ⟨r, hle⟩ => ⟨r, by omega⟩
        else
          have hadv : skipWhitespace s i + 1 ≤
              (if s[skipWhitespace s i1]? = some ':' then skipWhitespace s i1 + 1
               else skipWhitespace s i1) := objKey_advance s rest i i1 h (by rw [hk])
          match parseJSON s (inObjectValue :: rest)
              (if s[skipWhitespace s i1]? = some ':' then skipWhitespace s i1 + 1
               else skipWhitespace s i1) with
          | ⟨vr, hvp⟩ =>
            have hm : (if s[skipWhitespace s i1]? = some ':' then
                skipWhitespace s i1 + 1 else skipWhitespace s i1) ≤ vr.2.2 := hvp.1
            have hle3 : vr.2.2 ≤ skipWhitespace s vr.2.2 := skipWhitespace_le s vr.2.2
            if s[skipWhitespace s vr.2.2]? = some ',' then
              match parseObjectLoop s rest
                  (mapInsert obj key (valueFallback vr.2.1 vr.1))
                  (skipWhitespace s vr.2.2 + 1) with
              | ⟨r, hle⟩ => ⟨r, by omega⟩
            else if s[skipWhitespace s vr.2.2]? = some '}' then
              ⟨(mapInsert obj key (valueFallback vr.2.1 vr.1),
                skipWhitespace s vr.2.2), by
                  show i ≤ skipWhitespace s vr.2.2
                  omega⟩
            else
              match parseObjectLoop s rest
                  (mapInsert obj key (valueFallback vr.2.1 vr.1))
                  (skipWhitespace s vr.2.2) with
              | ⟨r, hle⟩ => ⟨r, by omega⟩
  else ⟨(obj, skipWhitespace s i), skipWhitespace_le s i⟩
termination_by 3 * (s.length - i) + 1
decreasing_by
  all_goals (try simp only [dite_eq_ite] at *)
  all_goals
    first
    | (have hle := skipWhitespace_le s i; omega)
    | omega

/-- The for loop of parseArray, with inArray :: rest passed to the element
parse.  The error-checking branch after the element parse is written exactly
as in the source although parseJSON never reports an error.  The closing
bracket is left for parseArray itself to consume. -/
def parseArrayLoop (s : List Char) (rest : List contextValue)
    (arr : List GoVal) (i : Nat) :
    { r : List GoVal × Nat // i ≤ r.2 } :=
  if h : skipWhitespace s i < s.length then
    if s[skipWhitespace s i] = ']' then
      ⟨(arr, skipWhitespace s i), skipWhitespace_le s i⟩
    else if s[skipWhitespace s i] = ',' then
      match parseArrayLoop s rest arr (skipWhitespace s i + 1) with
      | ⟨r, hle⟩ => ⟨r, by have := skipWhitespace_le s i; omega⟩
    else
      match parseJSON s (inArray :: rest) (skipWhitespace s i) with
      | ⟨vr, hvp⟩ =>
        have hmono : skipWhitespace s i ≤ vr.2.2 := hvp.1
        have hadv : skipWhitespace s i < vr.2.2 := by
          have hp := hvp.2.2
          rw [skipWhitespace_idem] at hp
          exact hp h
        have hle1 : i ≤ skipWhitespace s i := skipWhitespace_le s i
        have hle2 : vr.2.2 ≤ skipWhitespace s vr.2.2 := skipWhitespace_le s vr.2.2
        if vr.2.1.isSome = true then
          if s[skipWhitespace s vr.2.2]? = some ']' then
            ⟨(arr, skipWhitespace s vr.2.2), by
              show i ≤ skipWhitespace s vr.2.2
              omega⟩
          else
            match parseArrayLoop s rest arr (skipWhitespace s vr.2.2 + 1) with
            | ⟨r, hle⟩ => ⟨r, by omega⟩
        else
          if s[skipWhitespace s vr.2.2]? = some ',' then
            match parseArrayLoop s rest (arr ++ [vr.1])
                (skipWhitespace s vr.2.2 + 1) with
            | ⟨r, hle⟩ => ⟨r, by omega⟩
          else if s[skipWhitespace s vr.2.2]? = some ']' then
            ⟨(arr ++ [vr.1], skipWhitespace s vr.2.2), by
                show i ≤ skipWhitespace s vr.2.2
                omega⟩
          else
            match parseArrayLoop s rest (arr ++ [vr.1])
                (skipWhitespace s vr.2.2) with
            | ⟨r, hle⟩ => ⟨r, by omega⟩
  else ⟨(arr, skipWhitespace s i), skipWhitespace_le s i⟩
termination_by 3 * (s.length - i) + 1
decreasing_by
  all_goals (try simp only [dite_eq_ite] at *)
  all_goals
    first
    | (have hle := skipWhitespace_le s i; omega)
    | omega

/-- parseObject: run the loop on an empty map with the pushed context, then
consume a closing brace if one is at the cursor.  Always returns a nil
error (return obj, nil in the source). -/
def parseObject (s : List Char) (ctx : List contextValue) (i : Nat) :
    { r : List (String × GoVal) × Option String × Nat //
      i ≤ r.2.2 ∧ r.2.1 = none } :=
  match parseObjectLoop s ctx [] i with
  | ⟨(obj, k), hk⟩ =>
    if s[k]? = some '}' then
      ⟨(obj, none, k + 1), by
        have hk2 : i ≤ k := hk
        exact ⟨by show i ≤ k + 1; omega, rfl⟩⟩
    else ⟨(obj, none, k), ⟨hk, rfl⟩⟩
termination_by 3 * (s.length - i) + 2
decreasing_by
  omega

/-- parseArray: run the loop on an empty slice with the pushed context, then
consume a closing bracket if one is at the cursor.  Always returns a nil
error (return arr, nil in the source). -/
def parseArray (s : List Char) (ctx : List contextValue) (i : Nat) :
    { r : List GoVal × Option String × Nat // i ≤ r.2.2 ∧ r.2.1 = none } :=
  match parseArrayLoop s ctx [] i with
  | ⟨(arr, k), hk⟩ =>
    if s[k]? = some ']' then
      ⟨(arr, none, k + 1), by
        have hk2 : i ≤ k := hk
        exact ⟨by show i ≤ k + 1; omega, rfl⟩⟩
    else ⟨(arr, none, k), ⟨hk, rfl⟩⟩
termination_by 3 * (s.length - i) + 2
decreasing_by
  omega

end

/-- The result triple of parseJSON (the packaged invariant projected away). -/
def parseJSONv (s : List Char) (ctx : List contextValue) (i : Nat) :
    GoVal × Option String × Nat := (parseJSON s ctx i).val

/-- The result triple of parseObject. -/
def parseObjectv (s : List Char) (ctx : List contextValue) (i : Nat) :
    List (String × GoVal) × Option String × Nat := (parseObject s ctx i).val

/-- The result triple of parseArray. -/
def parseArrayv (s : List Char) (ctx : List contextValue) (i : Nat) :
    List GoVal × Option String × Nat := (parseArray s ctx i).val

/-- The result pair of the parseObject loop. -/
def parseObjectLoopv (s : List Char) (rest : List contextValue)
    (obj : List (String × GoVal)) (i : Nat) : List (String × GoVal) × Nat :=
  (parseObjectLoop s rest obj i).val

/-- The result pair of the parseArray loop. -/
def parseArrayLoopv (s : List Char) (rest : List contextValue)
    (arr : List GoVal) (i : Nat) : List GoVal × Nat :=
  (parseArrayLoop s rest arr i).val

theorem parseJSONv_eoi (s : List Char) (ctx : List contextValue) (i : Nat)
    (h : ¬ skipWhitespace s i < s.length) :
    parseJSONv s ctx i = (.nil, none, skipWhitespace s i) := by
  rw [parseJSONv, parseJSON, dif_neg h]

theorem parseJSONv_obj (s : List Char) (ctx : List contextValue) (i : Nat)
    (hc : s[skipWhitespace s i]? = some '{') :
    parseJSONv s ctx i =
      (GoVal.obj (parseObjectv s ctx (skipWhitespace s i + 1)).1,
        (parseObjectv s ctx (skipWhitespace s i + 1)).2.1,
        (parseObjectv s ctx (skipWhitespace s i + 1)).2.2) := by
  have h : skipWhitespace s i < s.length := (List.getElem?_eq_some_iff.mp hc).1
  have hg : s[skipWhitespace s i] = '{' := by
    have := List.getElem?_eq_getElem h
    rw [this] at hc; exact Option.some.inj hc
  rw [parseJSONv, parseJSON, dif_pos h, if_pos hg]
  rcases hO : parseObject s ctx (skipWhitespace s i + 1) with ⟨⟨kvs, e, k⟩, hp⟩
  rw [parseObjectv, hO]

theorem parseJSONv_arr (s : List Char) (ctx : List contextValue) (i : Nat)
    (hc : s[skipWhitespace s i]? = some '[') :
    parseJSONv s ctx i =
      (GoVal.arr (parseArrayv s ctx (skipWhitespace s i + 1)).1,
        (parseArrayv s ctx (skipWhitespace s i + 1)).2.1,
        (parseArrayv s ctx (skipWhitespace s i + 1)).2.2) := by
  have h : skipWhitespace s i < s.length := (List.getElem?_eq_some_iff.mp hc).1
  have hg : s[skipWhitespace s i] = '[' := by
    have := List.getElem?_eq_getElem h
    rw [this] at hc; exact Option.some.inj hc
  rw [parseJSONv, parseJSON, dif_pos h, if_neg (by rw [hg]; decide), if_pos hg]
  rcases hO : parseArray s ctx (skipWhitespace s i + 1) with ⟨⟨xs, e, k⟩, hp⟩
  rw [parseArrayv, hO]

theorem parseJSONv_str (s : List Char) (ctx : List contextValue) (i : Nat)
    (c : Char) (hc : s[skipWhitespace s i]? = some c)
    (hq : c = '"' ∨ c = '\'') :
    parseJSONv s ctx i =
      (GoVal.str (parseString s ctx (skipWhitespace s i)).1,
        (parseString s ctx (skipWhitespace s i)).2.1,
        (parseString s ctx (skipWhitespace s i)).2.2) := by
  have h : skipWhitespace s i < s.length := (List.getElem?_eq_some_iff.mp hc).1
  have hg : s[skipWhitespace s i] = c := by
    have := List.getElem?_eq_getElem h
    rw [this] at hc; exact Option.some.inj hc
  have hb : s[skipWhitespace s i] = '"' ∨ s[skipWhitespace s i] = '\'' := by
    rw [hg]; exact hq
  rw [parseJSONv, parseJSON, dif_pos h,
    if_neg (by rcases hq with hq | hq <;> rw [hg, hq] <;> decide),
    if_neg (by rcases hq with hq | hq <;> rw [hg, hq] <;> decide), dif_pos hb]

theorem parseJSONv_num (s : List Char) (ctx : List contextValue) (i : Nat)
    (c : Char) (hc : s[skipWhitespace s i]? = some c)
    (hq : ¬ (c = '"' ∨ c = '\'')) (hd : isDigitGo c = true ∨ c = '-')
    (hbrace : c ≠ '{') (hbrack : c ≠ '[') :
    parseJSONv s ctx i = parseNumber s (skipWhitespace s i) := by
  have h : skipWhitespace s i < s.length := (List.getElem?_eq_some_iff.mp hc).1
  have hg : s[skipWhitespace s i] = c := by
    have := List.getElem?_eq_getElem h
    rw [this] at hc; exact Option.some.inj hc
  rw [parseJSONv, parseJSON, dif_pos h, if_neg (by rw [hg]; exact hbrace),
    if_neg (by rw [hg]; exact hbrack), dif_neg (by rw [hg]; exact hq),
    dif_pos (by rw [hg]; exact hd)]

theorem parseJSONv_lit (s : List Char) (ctx : List contextValue) (i : Nat)
    (c : Char) (hc : s[skipWhitespace s i]? = some c)
    (hq : ¬ (c = '"' ∨ c = '\'')) (hd : ¬ (isDigitGo c = true ∨ c = '-'))
    (ht : c = 't' ∨ c = 'f' ∨ c = 'n')
    (hbrace : c ≠ '{') (hbrack : c ≠ '[') :
    parseJSONv s ctx i = parseBooleanOrNull s ctx (skipWhitespace s i) := by
  have h : skipWhitespace s i < s.length := (List.getElem?_eq_some_iff.mp hc).1
  have hg : s[skipWhitespace s i] = c := by
    have := List.getElem?_eq_getElem h
    rw [this] at hc; exact Option.some.inj hc
  rw [parseJSONv, parseJSON, dif_pos h, if_neg (by rw [hg]; exact hbrace),
    if_neg (by rw [hg]; exact hbrack), dif_neg (by rw [hg]; exact hq),
    dif_neg (by rw [hg]; exact hd), dif_pos (by rw [hg]; exact ht)]

theorem parseJSONv_letter (s : List Char) (ctx : List contextValue) (i : Nat)
    (c : Char) (c1 : contextValue) (cr : List contextValue)
    (hc : s[skipWhitespace s i]? = some c)
    (hq : ¬ (c = '"' ∨ c = '\'')) (hd : ¬ (isDigitGo c = true ∨ c = '-'))
    (ht : ¬ (c = 't' ∨ c = 'f' ∨ c = 'n')) (hl : isLetterGo c = true)
    (hbrace : c ≠ '{') (hbrack : c ≠ '[') (hctx : ctx = c1 :: cr) :
    parseJSONv s ctx i =
      (GoVal.str (parseString s ctx (skipWhitespace s i)).1,
        (parseString s ctx (skipWhitespace s i)).2.1,
        (parseString s ctx (skipWhitespace s i)).2.2) := by
  have h : skipWhitespace s i < s.length := (List.getElem?_eq_some_iff.mp hc).1
  have hg : s[skipWhitespace s i] = c := by
    have := List.getElem?_eq_getElem h
    rw [this] at hc; exact Option.some.inj hc
  subst hctx
  rw [parseJSONv, parseJSON, dif_pos h, if_neg (by rw [hg]; exact hbrace),
    if_neg (by rw [hg]; exact hbrack), dif_neg (by rw [hg]; exact hq),
    dif_neg (by rw [hg]; exact hd), dif_neg (by rw [hg]; exact ht),
    dif_pos (by rw [hg]; exact hl)]

theorem parseJSONv_garbage (s : List Char) (ctx : List contextValue) (i : Nat)
    (c : Char) (hc : s[skipWhitespace s i]? = some c)
    (hq : ¬ (c = '"' ∨ c = '\'')) (hd : ¬ (isDigitGo c = true ∨ c = '-'))
    (ht : ¬ (c = 't' ∨ c = 'f' ∨ c = 'n'))
    (hl : isLetterGo c = false ∨ ctx = [])
    (hbrace : c ≠ '{') (hbrack : c ≠ '[') :
    parseJSONv s ctx i = parseJSONv s ctx (skipWhitespace s i + 1) := by
  have h : skipWhitespace s i < s.length := (List.getElem?_eq_some_iff.mp hc).1
  have hg : s[skipWhitespace s i] = c := by
    have := List.getElem?_eq_getElem h
    rw [this] at hc; exact Option.some.inj hc
  rw [parseJSONv, parseJSON, dif_pos h, if_neg (by rw [hg]; exact hbrace),
    if_neg (by rw [hg]; exact hbrack), dif_neg (by rw [hg]; exact hq),
    dif_neg (by rw [hg]; exact hd), dif_neg (by rw [hg]; exact ht)]
  rcases hl with hl | hl
  · rw [dif_neg (by rw [hg, hl]; simp)]
    rcases hR : parseJSON s ctx (skipWhitespace s i + 1) with ⟨r, hr⟩
    rw [parseJSONv, hR]
  · subst hl
    by_cases hl2 : isLetterGo s[skipWhitespace s i] = true
    · rw [dif_pos hl2]
      rcases hR : parseJSON s [] (skipWhitespace s i + 1) with ⟨r, hr⟩
      rw [parseJSONv, hR]
    · rw [dif_neg hl2]
      rcases hR : parseJSON s [] (skipWhitespace s i + 1) with ⟨r, hr⟩
      rw [parseJSONv, hR]

theorem parseObjectLoopv_eoi (s : List Char) (rest : List contextValue)
    (obj : List (String × GoVal)) (i : Nat)
    (h : ¬ skipWhitespace s i < s.length) :
    parseObjectLoopv s rest obj i = (obj, skipWhitespace s i) := by
  rw [parseObjectLoopv, parseObjectLoop, dif_neg h]

theorem parseObjectLoopv_brace (s : List Char) (rest : List contextValue)
    (obj : List (String × GoVal)) (i : Nat)
    (hc : s[skipWhitespace s i]? = some '}') :
    parseObjectLoopv s rest obj i = (obj, skipWhitespace s i) := by
  have h : skipWhitespace s i < s.length := (List.getElem?_eq_some_iff.mp hc).1
  have hg : s[skipWhitespace s i] = '}' := by
    have := List.getElem?_eq_getElem h
    rw [this] at hc; exact Option.some.inj hc
  rw [parseObjectLoopv, parseObjectLoop, dif_pos h, if_pos hg]

theorem parseObjectLoopv_comma (s : List Char) (rest : List contextValue)
    (obj : List (String × GoVal)) (i : Nat)
    (hc : s[skipWhitespace s i]? = some ',') :
    parseObjectLoopv s rest obj i =
      parseObjectLoopv s rest obj (skipWhitespace s i + 1) := by
  have h : skipWhitespace s i < s.length := (List.getElem?_eq_some_iff.mp hc).1
  have hg : s[skipWhitespace s i] = ',' := by
    have := List.getElem?_eq_getElem h
    rw [this] at hc; exact Option.some.inj hc
  rw [parseObjectLoopv, parseObjectLoop, dif_pos h,
    if_neg (by rw [hg]; decide), if_pos hg]
  rcases hR : parseObjectLoop s rest obj (skipWhitespace s i + 1) with ⟨r, hr⟩
  rw [parseObjectLoopv, hR]

theorem parseObjectLoopv_kv (s : List Char) (rest : List contextValue)
    (obj : List (String × GoVal)) (i : Nat) (c : Char) (key : String)
    (ek : Option String) (i1 i2 : Nat) (v : GoVal) (ev : Option String) (i3 : Nat)
    (hc : s[skipWhitespace s i]? = some c) (h1 : c ≠ '}') (h2 : c ≠ ',')
    (hks : parseString s (inObjectKey :: rest) (skipWhitespace s i) = (key, ek, i1))
    (hi2 : i2 = if s[skipWhitespace s i1]? = some ':' then skipWhitespace s i1 + 1
      else skipWhitespace s i1)
    (hv : parseJSONv s (inObjectValue :: rest) i2 = (v, ev, i3)) :
    parseObjectLoopv s rest obj i =
      (if s[skipWhitespace s i3]? = some ',' then
        parseObjectLoopv s rest (mapInsert obj key (valueFallback ev v))
          (skipWhitespace s i3 + 1)
      else if s[skipWhitespace s i3]? = some '}' then
        (mapInsert obj key (valueFallback ev v), skipWhitespace s i3)
      else parseObjectLoopv s rest (mapInsert obj key (valueFallback ev v))
        (skipWhitespace s i3)) := by
  have h : skipWhitespace s i < s.length := (List.getElem?_eq_some_iff.mp hc).1
  have hg : s[skipWhitespace s i] = c := by
    have := List.getElem?_eq_getElem h
    rw [this] at hc; exact Option.some.inj hc
  subst hi2
  rw [parseObjectLoopv, parseObjectLoop, dif_pos h, if_neg (by rw [hg]; exact h1),
    if_neg (by rw [hg]; exact h2)]
  split
  case _ key2 ek2 i12 heq =>
  rw [hks] at heq
  injection heq with hkey hrest2
  injection hrest2 with hek2 hi12
  subst hkey
  subst hek2
  subst hi12
  have hek : ek = none := by
    have h0 := parseString_err s (inObjectKey :: rest) (skipWhitespace s i)
    rw [hks] at h0
    exact h0
  subst hek
  simp only [letFun, dite_eq_ite]
  split
  · next hbad => simp at hbad
  · next =>
    rw [parseJSONv] at hv
    have h1v : (parseJSON s (inObjectValue :: rest)
        (if s[skipWhitespace s i1]? = some ':' then skipWhitespace s i1 + 1
         else skipWhitespace s i1)).val.1 = v := by rw [hv]
    have h2v : (parseJSON s (inObjectValue :: rest)
        (if s[skipWhitespace s i1]? = some ':' then skipWhitespace s i1 + 1
         else skipWhitespace s i1)).val.2.1 = ev := by rw [hv]
    have h3v : (parseJSON s (inObjectValue :: rest)
        (if s[skipWhitespace s i1]? = some ':' then skipWhitespace s i1 + 1
         else skipWhitespace s i1)).val.2.2 = i3 := by rw [hv]
    rw [← h1v, ← h2v, ← h3v]
    by_cases hcc : s[skipWhitespace s (parseJSON s (inObjectValue :: rest)
        (if s[skipWhitespace s i1]? = some ':' then skipWhitespace s i1 + 1
         else skipWhitespace s i1)).val.2.2]? = some ','
    · rw [if_pos hcc, if_pos hcc, parseObjectLoopv]
    · rw [if_neg hcc, if_neg hcc]
      by_cases hcb : s[skipWhitespace s (parseJSON s (inObjectValue :: rest)
          (if s[skipWhitespace s i1]? = some ':' then skipWhitespace s i1 + 1
           else skipWhitespace s i1)).val.2.2]? = some '}'
      · rw [if_pos hcb, if_pos hcb]
      · rw [if_neg hcb, if_neg hcb, parseObjectLoopv]

theorem parseObjectLoopv_kv_eval (s : List Char) (rest : List contextValue)
    (obj : List (String × GoVal)) (i : Nat) (c : Char)
    (hc : s[skipWhitespace s i]? = some c) (h1 : c ≠ '}') (h2 : c ≠ ',') :
    parseObjectLoopv s rest obj i =
      (let ks := parseString s (inObjectKey :: rest) (skipWhitespace s i)
       let i2 := if s[skipWhitespace s ks.2.2]? = some ':' then
           skipWhitespace s ks.2.2 + 1 else skipWhitespace s ks.2.2
       let r := parseJSONv s (inObjectValue :: rest) i2
       let obj2 := mapInsert obj ks.1 (valueFallback r.2.1 r.1)
       let j4 := skipWhitespace s r.2.2
       if s[j4]? = some ',' then parseObjectLoopv s rest obj2 (j4 + 1)
       else if s[j4]? = some '}' then (obj2, j4)
       else parseObjectLoopv s rest obj2 j4) :=
  parseObjectLoopv_kv s rest obj i c
    (parseString s (inObjectKey :: rest) (skipWhitespace s i)).1
    (parseString s (inObjectKey :: rest) (skipWhitespace s i)).2.1
    (parseString s (inObjectKey :: rest) (skipWhitespace s i)).2.2 _
    (parseJSONv s (inObjectValue :: rest) _).1
    (parseJSONv s (inObjectValue :: rest) _).2.1
    (parseJSONv s (inObjectValue :: rest) _).2.2 hc h1 h2 rfl rfl rfl

theorem parseArrayLoopv_eoi (s : List Char) (rest : List contextValue)
    (arr : List GoVal) (i : Nat) (h : ¬ skipWhitespace s i < s.length) :
    parseArrayLoopv s rest arr i = (arr, skipWhitespace s i) := by
  rw [parseArrayLoopv, parseArrayLoop, dif_neg h]

theorem parseArrayLoopv_bracket (s : List Char) (rest : List contextValue)
    (arr : List GoVal) (i : Nat) (hc : s[skipWhitespace s i]? = some ']') :
    parseArrayLoopv s rest arr i = (arr, skipWhitespace s i) := by
  have h : skipWhitespace s i < s.length := (List.getElem?_eq_some_iff.mp hc).1
  have hg : s[skipWhitespace s i] = ']' := by
    have := List.getElem?_eq_getElem h
    rw [this] at hc; exact Option.some.inj hc
  rw [parseArrayLoopv, parseArrayLoop, dif_pos h, if_pos hg]

theorem parseArrayLoopv_comma (s : List Char) (rest : List contextValue)
    (arr : List GoVal) (i : Nat) (hc : s[skipWhitespace s i]? = some ',') :
    parseArrayLoopv s rest arr i =
      parseArrayLoopv s rest arr (skipWhitespace s i + 1) := by
  have h : skipWhitespace s i < s.length := (List.getElem?_eq_some_iff.mp hc).1
  have hg : s[skipWhitespace s i] = ',' := by
    have := List.getElem?_eq_getElem h
    rw [this] at hc; exact Option.some.inj hc
  rw [parseArrayLoopv, parseArrayLoop, dif_pos h,
    if_neg (by rw [hg]; decide), if_pos hg]
  rcases hR : parseArrayLoop s rest arr (skipWhitespace s i + 1) with ⟨r, hr⟩
  rw [parseArrayLoopv, hR]

theorem parseArrayLoopv_elem (s : List Char) (rest : List contextValue)
    (arr : List GoVal) (i : Nat) (c : Char) (v : GoVal) (ev : Option String)
    (i1 : Nat) (hc : s[skipWhitespace s i]? = some c) (h1 : c ≠ ']')
    (h2 : c ≠ ',')
    (hv : parseJSONv s (inArray :: rest) (skipWhitespace s i) = (v, ev, i1)) :
    parseArrayLoopv s rest arr i =
      (if s[skipWhitespace s i1]? = some ',' then
        parseArrayLoopv s rest (arr ++ [v]) (skipWhitespace s i1 + 1)
      else if s[skipWhitespace s i1]? = some ']' then
        (arr ++ [v], skipWhitespace s i1)
      else parseArrayLoopv s rest (arr ++ [v]) (skipWhitespace s i1)) := by
  have h : skipWhitespace s i < s.length := (List.getElem?_eq_some_iff.mp hc).1
  have hg : s[skipWhitespace s i] = c := by
    have := List.getElem?_eq_getElem h
    rw [this] at hc; exact Option.some.inj hc
  rw [parseArrayLoopv, parseArrayLoop, dif_pos h, if_neg (by rw [hg]; exact h1),
    if_neg (by rw [hg]; exact h2)]
  simp only [letFun, dite_eq_ite]
  split
  · next hbad =>
      have hev := (parseJSON s (inArray :: rest) (skipWhitespace s i)).property.2.1
      rw [hev] at hbad
      simp at hbad
  · next =>
    rw [parseJSONv] at hv
    have h1v : (parseJSON s (inArray :: rest) (skipWhitespace s i)).val.1 = v := by
      rw [hv]
    have h3v : (parseJSON s (inArray :: rest) (skipWhitespace s i)).val.2.2 = i1 := by
      rw [hv]
    rw [← h1v, ← h3v]
    by_cases hcc : s[skipWhitespace s (parseJSON s (inArray :: rest)
        (skipWhitespace s i)).val.2.2]? = some ','
    · rw [if_pos hcc, if_pos hcc, parseArrayLoopv]
    · rw [if_neg hcc, if_neg hcc]
      by_cases hcb : s[skipWhitespace s (parseJSON s (inArray :: rest)
          (skipWhitespace s i)).val.2.2]? = some ']'
      · rw [if_pos hcb, if_pos hcb]
      · rw [if_neg hcb, if_neg hcb, parseArrayLoopv]

theorem parseArrayLoopv_elem_eval (s : List Char) (rest : List contextValue)
    (arr : List GoVal) (i : Nat) (c : Char)
    (hc : s[skipWhitespace s i]? = some c) (h1 : c ≠ ']') (h2 : c ≠ ',') :
    parseArrayLoopv s rest arr i =
      (let r := parseJSONv s (inArray :: rest) (skipWhitespace s i)
       let arr2 := arr ++ [r.1]
       let j3 := skipWhitespace s r.2.2
       if s[j3]? = some ',' then parseArrayLoopv s rest arr2 (j3 + 1)
       else if s[j3]? = some ']' then (arr2, j3)
       else parseArrayLoopv s rest arr2 j3) :=
  parseArrayLoopv_elem s rest arr i c
    (parseJSONv s (inArray :: rest) (skipWhitespace s i)).1
    (parseJSONv s (inArray :: rest) (skipWhitespace s i)).2.1
    (parseJSONv s (inArray :: rest) (skipWhitespace s i)).2.2 hc h1 h2 rfl

theorem parseObjectv_eq (s : List Char) (ctx : List contextValue) (i : Nat) :
    parseObjectv s ctx i =
      (let r := parseObjectLoopv s ctx [] i
       if s[r.2]? = some '}' then (r.1, none, r.2 + 1) else (r.1, none, r.2)) := by
  rw [parseObjectv, parseObject]
  rcases hR : parseObjectLoop s ctx [] i with ⟨⟨obj, k⟩, hk⟩
  simp only [parseObjectLoopv, hR]
  split
  · rfl
  · rfl

theorem parseArrayv_eq (s : List Char) (ctx : List contextValue) (i : Nat) :
    parseArrayv s ctx i =
      (let r := parseArrayLoopv s ctx [] i
       if s[r.2]? = some ']' then (r.1, none, r.2 + 1) else (r.1, none, r.2)) := by
  rw [parseArrayv, parseArray]
  rcases hR : parseArrayLoop s ctx [] i with ⟨⟨arr, k⟩, hk⟩
  simp only [parseArrayLoopv, hR]
  split
  · rfl
  · rfl

/-- The multi-value recovery loop of Parse: while input remains, skip
whitespace (stopping if that reaches the end), attempt another top-level
parse, collect the value when it is non-nil and error-free, and otherwise
advance the cursor one code point past the attempt. -/
def parseRest (s : List Char) (ctx : List contextValue) (results : List GoVal)
    (i : Nat) : List GoVal × Nat :=
  if hli : i < s.length then
    have hle1 : i ≤ skipWhitespace s i := skipWhitespace_le s i
    have hlen : skipWhitespace s i ≤ s.length :=
      skipWhitespace_le_length s i (Nat.le_of_lt hli)
    if hskip : skipWhitespace s i = s.length then (results, skipWhitespace s i)
    else
      match parseJSON s ctx (skipWhitespace s i) with
      | ⟨(v, e, k), hvp⟩ =>
        have hm : skipWhitespace s i ≤ k := hvp.1
        have hpr : skipWhitespace s i < k := by
          have hp := hvp.2.2
          rw [skipWhitespace_idem] at hp
          exact hp (by omega)
        if e = none ∧ v.isNil = false then parseRest s ctx (results ++ [v]) k
        else parseRest s ctx results (k + 1)
  else (results, i)
termination_by s.length - i
decreasing_by
  · omega
  · omega

theorem parseRest_end (s : List Char) (ctx : List contextValue)
    (results : List GoVal) (i : Nat) (h : ¬ i < s.length) :
    parseRest s ctx results i = (results, i) := by
  rw [parseRest, dif_neg h]

theorem parseRest_ws (s : List Char) (ctx : List contextValue)
    (results : List GoVal) (i : Nat) (h : i < s.length)
    (hskip : skipWhitespace s i = s.length) :
    parseRest s ctx results i = (results, skipWhitespace s i) := by
  rw [parseRest, dif_pos h]
  simp only [letFun]
  rw [dif_pos hskip]

theorem parseRest_step (s : List Char) (ctx : List contextValue)
    (results : List GoVal) (i : Nat) (h : i < s.length)
    (hskip : skipWhitespace s i ≠ s.length) :
    parseRest s ctx results i =
      (let r := parseJSONv s ctx (skipWhitespace s i)
       if r.2.1 = none ∧ r.1.isNil = false then
         parseRest s ctx (results ++ [r.1]) r.2.2
       else parseRest s ctx results (r.2.2 + 1)) := by
  rw [parseRest, dif_pos h]
  simp only [letFun]
  rw [dif_neg hskip]
  rcases hV : parseJSON s ctx (skipWhitespace s i) with ⟨⟨v, e, k⟩, hvp⟩
  simp only [letFun, hV, parseJSONv]

/-- Parse: one top-level parse; on leftover input, collect further top-level
values with the multi-value loop, returning a single collected value alone
and a longer collection as a sequence (a Go slice, the same dynamic value
as an array). -/
def Parse (p : parserSt) : GoVal × Option String :=
  let r := parseJSONv p.jsonStr p.context p.index
  match r.2.1 with
  | some er => (.nil, some er)
  | none =>
    if skipWhitespace p.jsonStr r.2.2 < p.jsonStr.length then
      match (parseRest p.jsonStr p.context [r.1] (skipWhitespace p.jsonStr r.2.2)).1 with
      | [x] => (x, none)
      | xs => (.arr xs, none)
    else (r.1, none)

/-- Loads: model of the package-level Loads.  um models the strict decoder
json.Unmarshal (none is a decode error), the fast path; on its failure the
repair parser runs. -/
def Loads (um : String → Option GoVal) (jsonStr : String) : GoVal × Option String :=
  match um jsonStr with
  | some out => (out, none)
  | none => Parse (NewParser jsonStr)

/-- Repair: model of the package-level Repair.  um models json.Unmarshal
and mi models json.MarshalIndent with two-space indentation (none is a
marshal failure); the two error strings stand for the wrapped fmt.Errorf
messages of the source (the wrapped inner error text is not modelled). -/
def Repair (um : String → Option GoVal) (mi : GoVal → Option String)
    (jsonStr : String) : String × Option String :=
  match um jsonStr with
  | some out =>
    match mi out with
    | some repaired => (repaired, none)
    | none => ("", some "failed to re-marshal already-valid json")
  | none =>
    match Parse (NewParser jsonStr) with
    | (_, some er) => ("", some er)
    | (parsedJSON, none) =>
      match mi parsedJSON with
      | some repaired => (repaired, none)
      | none => ("", some "failed to marshal repaired json")

theorem parseRest_mono : ∀ s ctx res i, i ≤ (parseRest s ctx res i).2 := by
  suffices h : ∀ n (s : List Char) ctx res i, s.length - i ≤ n →
      i ≤ (parseRest s ctx res i).2 from
    fun s ctx res i => h (s.length - i) s ctx res i (Nat.le_refl _)
  intro n
  induction n with
  | zero =>
      intro s ctx res i hle
      rw [parseRest_end s ctx res i (by omega)]
  | succ n ih =>
      intro s ctx res i hle
      by_cases hli : i < s.length
      · have hws := skipWhitespace_le s i
        by_cases hskip : skipWhitespace s i = s.length
        · rw [parseRest_ws s ctx res i hli hskip]
          exact hws
        · rw [parseRest_step s ctx res i hli hskip]
          have hwl := skipWhitespace_le_length s i (Nat.le_of_lt hli)
          have hpr := (parseJSON s ctx (skipWhitespace s i)).property.2.2
          have hadv : skipWhitespace s i <
              (parseJSONv s ctx (skipWhitespace s i)).2.2 := by
            have h1 := skipWhitespace_le s (skipWhitespace s i)
            have h2' : skipWhitespace s (skipWhitespace s i) <
                (parseJSONv s ctx (skipWhitespace s i)).2.2 :=
              hpr (by have := skipWhitespace_idem s i; omega)
            omega
          dsimp only
          split
          · have := ih s ctx (res ++ [(parseJSONv s ctx (skipWhitespace s i)).1])
              (parseJSONv s ctx (skipWhitespace s i)).2.2 (by omega)
            omega
          · have := ih s ctx res ((parseJSONv s ctx (skipWhitespace s i)).2.2 + 1)
              (by omega)
            omega
      · rw [parseRest_end s ctx res i hli]

theorem parseRest_collect : ∀ (s : List Char) ctx res i, ∃ extra,
    (parseRest s ctx res i).1 = res ++ extra ∧ GoVal.nil ∉ extra := by
  suffices h : ∀ n (s : List Char) ctx res i, s.length - i ≤ n → ∃ extra,
      (parseRest s ctx res i).1 = res ++ extra ∧ GoVal.nil ∉ extra from
    fun s ctx res i => h (s.length - i) s ctx res i (Nat.le_refl _)
  intro n
  induction n with
  | zero =>
      intro s ctx res i hle
      rw [parseRest_end s ctx res i (by omega)]
      exact ⟨[], by simp⟩
  | succ n ih =>
      intro s ctx res i hle
      by_cases hli : i < s.length
      · have hws := skipWhitespace_le s i
        by_cases hskip : skipWhitespace s i = s.length
        · rw [parseRest_ws s ctx res i hli hskip]
          exact ⟨[], by simp⟩
        · rw [parseRest_step s ctx res i hli hskip]
          have hwl := skipWhitespace_le_length s i (Nat.le_of_lt hli)
          have hpr := (parseJSON s ctx (skipWhitespace s i)).property.2.2
          have hadv : skipWhitespace s i <
              (parseJSONv s ctx (skipWhitespace s i)).2.2 := by
            have h1 := skipWhitespace_le s (skipWhitespace s i)
            have h2' : skipWhitespace s (skipWhitespace s i) <
                (parseJSONv s ctx (skipWhitespace s i)).2.2 :=
              hpr (by have := skipWhitespace_idem s i; omega)
            omega
          dsimp only
          split
          · next hcond =>
            obtain ⟨extra, hex, hnil⟩ := ih s ctx
              (res ++ [(parseJSONv s ctx (skipWhitespace s i)).1])
              (parseJSONv s ctx (skipWhitespace s i)).2.2 (by omega)
            refine ⟨(parseJSONv s ctx (skipWhitespace s i)).1 :: extra, ?_, ?_⟩
            · rw [hex]; simp
            · intro hmem
              rcases List.mem_cons.mp hmem with hmem | hmem
              · have := hcond.2
                rw [← hmem] at this
                simp [GoVal.isNil] at this
              · exact hnil hmem
          · obtain ⟨extra, hex, hnil⟩ := ih s ctx res
              ((parseJSONv s ctx (skipWhitespace s i)).2.2 + 1) (by omega)
            exact ⟨extra, hex, hnil⟩
      · rw [parseRest_end s ctx res i hli]
        exact ⟨[], by simp⟩

theorem Parse_err_none (p : parserSt) : (Parse p).2 = none := by
  rw [Parse]
  have he : (parseJSONv p.jsonStr p.context p.index).2.1 = none :=
    (parseJSON p.jsonStr p.context p.index).property.2.1
  rw [he]
  split
  · next e val heq => cases heq
  · next e heq =>
      split
      · split <;> rfl
      · rfl

/-- C1: the recovery path never fails: parser.Parse always returns a nil
error; Loads always returns a nil error; and every error Repair returns is a
re-serialization fault — the failure of the MarshalIndent model mi on the
already-valid decoded value or on the successfully recovered value — never a
fault of recovery itself. -/
theorem claim_C1 :
    (∀ p : parserSt, (Parse p).2 = none) ∧
    (∀ (um : String → Option GoVal) (s : String), (Loads um s).2 = none) ∧
    (∀ (um : String → Option GoVal) (mi : GoVal → Option String) (s : String)
      (e : String), (Repair um mi s).2 = some e →
      (e = "failed to re-marshal already-valid json" ∧
        ∃ v, um s = some v ∧ mi v = none) ∨
      (e = "failed to marshal repaired json" ∧ um s = none ∧
        mi (Parse (NewParser s)).1 = none)) := by
  refine ⟨Parse_err_none, ?_, ?_⟩
  · intro um s
    rw [Loads]
    split
    · rfl
    · exact Parse_err_none (NewParser s)
  · intro um mi s e hrep
    rcases hum : um s with _ | v
    · rcases hP : Parse (NewParser s) with ⟨pv, pe⟩
      have hpe : pe = none := by
        have := Parse_err_none (NewParser s)
        rw [hP] at this
        exact this
      subst hpe
      rcases hmi : mi pv with _ | t
      · right
        simp only [Repair, hum, hP, hmi, Option.some.injEq] at hrep
        exact ⟨hrep.symm, rfl, rfl⟩
      · simp [Repair, hum, hP, hmi] at hrep
    · rcases hmi : mi v with _ | t
      · left
        simp only [Repair, hum, hmi, Option.some.injEq] at hrep
        exact ⟨hrep.symm, v, rfl, hmi⟩
      · simp [Repair, hum, hmi] at hrep

/-- Witness for C1: with a decoder that accepts the input and a re-serializer
that always fails, Repair reports exactly the re-marshal fault of the valid
value. -/
theorem claim_C1_witness :
    ("failed to re-marshal already-valid json" =
        "failed to re-marshal already-valid json" ∧
      ∃ v, (fun (_ : String) => some GoVal.nil) "x" = some v ∧
        (fun (_ : GoVal) => (none : Option String)) v = none) ∨
    ("failed to re-marshal already-valid json" = "failed to marshal repaired json" ∧
      (fun (_ : String) => some GoVal.nil) "x" = none ∧
      (fun (_ : GoVal) => (none : Option String))
        (Parse (NewParser "x")).1 = none) :=
  claim_C1.2.2 (fun _ => some GoVal.nil) (fun _ => none) "x"
    "failed to re-marshal already-valid json" (by rw [Repair])

/-- C2: parseBooleanOrNull tests the literal prefixes true, false, null at
the cursor in that priority order, advances the cursor by exactly the
literal length (4, 5, 4) on a match and returns the matching value, and with
no match delegates to parseString, so an unquoted token such as truthy comes
back as a string. -/
theorem claim_C2 (s : List Char) (ctx : List contextValue) (i : Nat) :
    ("true".toList.isPrefixOf (s.drop i) = true →
      parseBooleanOrNull s ctx i = (.bool true, none, i + 4)) ∧
    (¬ "true".toList.isPrefixOf (s.drop i) = true →
      "false".toList.isPrefixOf (s.drop i) = true →
      parseBooleanOrNull s ctx i = (.bool false, none, i + 5)) ∧
    (¬ "true".toList.isPrefixOf (s.drop i) = true →
      ¬ "false".toList.isPrefixOf (s.drop i) = true →
      "null".toList.isPrefixOf (s.drop i) = true →
      parseBooleanOrNull s ctx i = (.nil, none, i + 4)) ∧
    (¬ "true".toList.isPrefixOf (s.drop i) = true →
      ¬ "false".toList.isPrefixOf (s.drop i) = true →
      ¬ "null".toList.isPrefixOf (s.drop i) = true →
      parseBooleanOrNull s ctx i = (.str (parseString s ctx i).1,
        (parseString s ctx i).2.1, (parseString s ctx i).2.2)) := by
  refine ⟨?_, ?_, ?_, ?_⟩
  · intro h1
    rw [parseBooleanOrNull, if_pos h1]
  · intro h1 h2
    rw [parseBooleanOrNull, if_neg h1, if_pos h2]
  · intro h1 h2 h3
    rw [parseBooleanOrNull, if_neg h1, if_neg h2, if_pos h3]
  · intro h1 h2 h3
    rw [parseBooleanOrNull, if_neg h1, if_neg h2, if_neg h3]

/-- Witness for C2: the literal true is recognized with a 4-place cursor
advance, and the token truthy in object-value context is recovered as the
string truthy through the parseString delegation. -/
theorem claim_C2_witness :
    parseBooleanOrNull "true,".toList [] 0 = (.bool true, none, 4) ∧
    parseBooleanOrNull "truthy,".toList [inObjectValue] 0 =
      (.str "truthy", none, 6) := by
  constructor
  · exact (claim_C2 "true,".toList [] 0).1 (by decide)
  · have h := (claim_C2 "truthy,".toList [inObjectValue] 0).2.2.2
      (by decide) (by decide) (by decide)
    rw [h]
    simp [parseString, parseStringLoop, skipWhitespace, isSpaceGo, missingStop,
      escapeChar, trimRight, String.toList]

/-- Counterexample to C3 as stated: on the input with a second top-level
value null, Parse discards the recovered null instead of collecting it, and
returns the first value alone rather than the sequence of both. -/
theorem claim_C3_counterexample :
    Parse (NewParser "1 null") = (GoVal.int 1, none) ∧
    Parse (NewParser "1 null") ≠ (GoVal.arr [GoVal.int 1, GoVal.nil], none) := by
  have h : Parse (NewParser "1 null") = (GoVal.int 1, none) := by
    simp [Parse, NewParser, parseJSONv_eoi, parseJSONv_obj, parseJSONv_arr,
      parseJSONv_str, parseJSONv_num, parseJSONv_lit, parseJSONv_letter,
      parseJSONv_garbage, parseObjectLoopv_kv_eval, parseArrayLoopv_elem_eval,
      parseObjectv_eq, parseArrayv_eq, parseRest_end, parseRest_ws,
      parseRest_step, parseString, parseStringLoop, parseNumber, numLoop,
      parseBooleanOrNull, skipWhitespace, isSpaceGo, isDigitGo, isLetterGo,
      ndRanges, numChar, goParseInt64, asciiDigit, digitsToNat, GoVal.isNil,
      String.toList, missingStop, escapeChar, trimRight, mapInsert,
      valueFallback]
  exact ⟨h, by rw [h]; simp⟩

/-- C3 (amended): after the first top-level value, only further values
recovered as non-nil are collected, in encounter order (a recovered null is
the nil no-value result and is discarded); when the first parse leaves
unconsumed input Parse returns the single collected value alone or the
collection as a sequence, and otherwise returns the first value directly. -/
theorem claim_C3_amended :
    (∀ (s : List Char) (ctx : List contextValue) (res : List GoVal) (i : Nat),
      ∃ extra, (parseRest s ctx res i).1 = res ++ extra ∧ GoVal.nil ∉ extra) ∧
    (∀ p : parserSt,
      (skipWhitespace p.jsonStr (parseJSONv p.jsonStr p.context p.index).2.2 <
          p.jsonStr.length →
        Parse p = (match (parseRest p.jsonStr p.context
            [(parseJSONv p.jsonStr p.context p.index).1]
            (skipWhitespace p.jsonStr
              (parseJSONv p.jsonStr p.context p.index).2.2)).1 with
          | [x] => (x, none)
          | xs => (GoVal.arr xs, none))) ∧
      (¬ skipWhitespace p.jsonStr (parseJSONv p.jsonStr p.context p.index).2.2 <
          p.jsonStr.length →
        Parse p = ((parseJSONv p.jsonStr p.context p.index).1, none))) := by
  refine ⟨parseRest_collect, ?_⟩
  intro p
  have he : (parseJSONv p.jsonStr p.context p.index).2.1 = none :=
    (parseJSON p.jsonStr p.context p.index).property.2.1
  constructor
  · intro hlt
    rw [Parse, he]
    split
    · next e val heq => cases heq
    · next e heq => rw [if_pos hlt]
  · intro hlt
    rw [Parse, he]
    split
    · next e val heq => cases heq
    · next e heq => rw [if_neg hlt]

/-- Witness for C3 (amended): two non-null top-level values are both
collected in order and returned as a sequence. -/
theorem claim_C3_amended_witness :
    Parse (NewParser "1 2") = (GoVal.arr [GoVal.int 1, GoVal.int 2], none) := by
  have h := (claim_C3_amended.2 (NewParser "1 2")).1 (by
    simp [NewParser, parseJSONv_num, parseJSONv_eoi, parseNumber, numLoop,
      skipWhitespace, isSpaceGo, isDigitGo, ndRanges, numChar, goParseInt64,
      asciiDigit, digitsToNat, String.toList])
  rw [h]
  simp [NewParser, parseJSONv_eoi, parseJSONv_num, parseRest_end, parseRest_ws,
    parseRest_step, parseNumber, numLoop, skipWhitespace, isSpaceGo, isDigitGo,
    ndRanges, numChar, goParseInt64, asciiDigit, digitsToNat, GoVal.isNil,
    String.toList]

/-- C4: in the object loop, after a key has been parsed the recovered value
is passed through valueFallback, which substitutes the empty string exactly
when value parsing reported an error and keeps the value otherwise; the
binding for the key is inserted in every case and the loop continues (or
closes at a brace) rather than aborting. -/
theorem claim_C4 :
    (∀ (m : String) (v : GoVal), valueFallback (some m) v = GoVal.str "") ∧
    (∀ v : GoVal, valueFallback none v = v) ∧
    (∀ (s : List Char) (rest : List contextValue) (obj : List (String × GoVal))
      (i : Nat) (c : Char) (key : String) (ek : Option String) (i1 i2 : Nat)
      (v : GoVal) (ev : Option String) (i3 : Nat),
      s[skipWhitespace s i]? = some c → c ≠ '}' → c ≠ ',' →
      parseString s (inObjectKey :: rest) (skipWhitespace s i) = (key, ek, i1) →
      i2 = (if s[skipWhitespace s i1]? = some ':' then skipWhitespace s i1 + 1
        else skipWhitespace s i1) →
      parseJSONv s (inObjectValue :: rest) i2 = (v, ev, i3) →
      parseObjectLoopv s rest obj i =
        (if s[skipWhitespace s i3]? = some ',' then
          parseObjectLoopv s rest (mapInsert obj key (valueFallback ev v))
            (skipWhitespace s i3 + 1)
        else if s[skipWhitespace s i3]? = some '}' then
          (mapInsert obj key (valueFallback ev v), skipWhitespace s i3)
        else parseObjectLoopv s rest (mapInsert obj key (valueFallback ev v))
          (skipWhitespace s i3))) :=
  ⟨fun _ _ => rfl, fun _ => rfl,
   fun s rest obj i c key ek i1 i2 v ev i3 hc h1 h2 hks hi2 hv =>
     parseObjectLoopv_kv s rest obj i c key ek i1 i2 v ev i3 hc h1 h2 hks hi2 hv⟩

/-- Witness for C4: the failure fallback evaluates to the empty string on a
concrete error, and on a concrete object body the loop inserts the parsed
binding and closes at the brace. -/
theorem claim_C4_witness :
    valueFallback (some "boom") (GoVal.int 7) = GoVal.str "" ∧
    parseObjectLoopv "k:1\x7d".toList [] [] 0 = ([("k", GoVal.int 1)], 3) := by
  constructor
  · exact claim_C4.1 "boom" (GoVal.int 7)
  · have h := claim_C4.2.2 "k:1\x7d".toList [] [] 0 'k' "k" none 1 2 (GoVal.int 1)
      none 3
      (by simp [skipWhitespace, isSpaceGo, String.toList])
      (by decide) (by decide)
      (by simp [parseString, parseStringLoop, skipWhitespace, isSpaceGo,
        missingStop, escapeChar, trimRight, String.toList])
      (by simp [skipWhitespace, isSpaceGo, String.toList])
      (by simp [parseJSONv_num, parseNumber, numLoop, skipWhitespace, isSpaceGo,
        isDigitGo, ndRanges, numChar, goParseInt64, asciiDigit, digitsToNat,
        String.toList])
    rw [h]
    simp [skipWhitespace, isSpaceGo, String.toList, mapInsert, valueFallback]

/-- C5: a quote-missing string scan stops according to the top of the
context stack — only at a colon under an object-key context, at a comma or
closing brace or bracket under an object-value or array context, and at any
of the four under an empty stack — and the stopping character is left at
the cursor, not consumed (part two: a scan started at such a character
stops immediately, returning the cursor unmoved). -/
theorem claim_C5 (s : List Char) (ctx : List contextValue) (q : Char)
    (acc : List Char) (i : Nat) :
    ((parseStringLoop s ctx true q acc i).2 < s.length →
      ∀ c, s[(parseStringLoop s ctx true q acc i).2]? = some c →
        ((∀ r2, ctx = inObjectKey :: r2 → c = ':') ∧
         (∀ t r2, ctx = t :: r2 → (t = inObjectValue ∨ t = inArray) →
           c = ',' ∨ c = '}' ∨ c = ']') ∧
         (ctx = [] → c = ',' ∨ c = '}' ∨ c = ']' ∨ c = ':'))) ∧
    (∀ c, s[i]? = some c →
      ((∃ r2, ctx = inObjectKey :: r2) ∧ c = ':') ∨
      ((∃ t r2, ctx = t :: r2 ∧ (t = inObjectValue ∨ t = inArray)) ∧
        (c = ',' ∨ c = '}' ∨ c = ']')) ∨
      (ctx = [] ∧ (c = ',' ∨ c = '}' ∨ c = ']' ∨ c = ':')) →
      parseStringLoop s ctx true q acc i = (acc, i)) := by
  constructor
  · intro hlt c hc
    obtain ⟨d, hd, hm⟩ := parseStringLoop_stop s ctx q acc i hlt
    rw [hc] at hd
    cases hd
    refine ⟨?_, ?_, ?_⟩
    · intro r2 hctx
      subst hctx
      simpa [missingStop] using hm
    · intro t r2 hctx ht
      subst hctx
      rcases ht with ht | ht <;> subst ht <;> simpa [missingStop] using hm
    · intro hctx
      subst hctx
      simpa [missingStop] using hm
  · intro c hc hcase
    apply parseStringLoop_immediate s ctx q acc i c hc
    rcases hcase with ⟨⟨r2, hctx⟩, hcolon⟩ | ⟨⟨t, r2, hctx, ht⟩, hset⟩ | ⟨hctx, hset⟩
    · subst hctx; subst hcolon; simp [missingStop]
    · subst hctx
      rcases ht with ht | ht <;> subst ht <;> simp [missingStop] <;> tauto
    · subst hctx; simp [missingStop]; tauto

/-- Witness for C5: a bare comma at the cursor with an empty stack stops the
scan immediately with the cursor unmoved, and a scan under an object-key
context stops exactly at the colon. -/
theorem claim_C5_witness :
    parseStringLoop ",x".toList [] true (Char.ofNat 0) ['a'] 0 = (['a'], 0) ∧
    parseStringLoop "k:v".toList [inObjectKey] true (Char.ofNat 0) [] 0 =
      (['k'], 1) ∧ (':' : Char) = ':' := by
  refine ⟨?_, ?_, ?_⟩
  · exact (claim_C5 ",x".toList [] (Char.ofNat 0) ['a'] 0).2 ',' (by decide)
      (Or.inr (Or.inr ⟨rfl, Or.inl rfl⟩))
  · simp [parseStringLoop, missingStop, escapeChar, String.toList]
  · have hloop : parseStringLoop "k:v".toList [inObjectKey] true (Char.ofNat 0)
        [] 0 = (['k'], 1) := by
      simp [parseStringLoop, missingStop, escapeChar, String.toList]
    exact (((claim_C5 "k:v".toList [inObjectKey] (Char.ofNat 0) [] 0).1
      (by rw [hloop]; decide) ':' (by rw [hloop]; decide)).1) [] rfl

/-- C6: the escape table maps backslash-quote, backslash-backslash,
backslash-slash and backslash-apostrophe to the literal character, the five
letter escapes to their control characters, and any other escaped character
to the two-character sequence backslash-then-character; a backslash in the
scan consumes the escaped character and appends the table's output without
ever stopping the scan; and no string parse is ever rejected. -/
theorem claim_C6 :
    escapeChar '"' = ['"'] ∧ escapeChar '\\' = ['\\'] ∧
    escapeChar '/' = ['/'] ∧ escapeChar '\'' = ['\''] ∧
    escapeChar 'b' = ['\x08'] ∧ escapeChar 'f' = ['\x0C'] ∧
    escapeChar 'n' = ['\n'] ∧ escapeChar 'r' = ['\r'] ∧
    escapeChar 't' = ['\t'] ∧
    (∀ c : Char, c ≠ '"' → c ≠ '\\' → c ≠ '/' → c ≠ '\'' → c ≠ 'b' →
      c ≠ 'f' → c ≠ 'n' → c ≠ 'r' → c ≠ 't' → escapeChar c = ['\\', c]) ∧
    (∀ (s : List Char) (ctx : List contextValue) (mq : Bool) (q : Char)
      (acc : List Char) (i : Nat) (c : Char),
      s[i]? = some '\\' → s[i + 1]? = some c →
      parseStringLoop s ctx mq q acc i =
        parseStringLoop s ctx mq q (acc ++ escapeChar c) (i + 2)) ∧
    (∀ (s : List Char) (ctx : List contextValue) (i : Nat),
      (parseString s ctx i).2.1 = none) := by
  refine ⟨by decide, by decide, by decide, by decide, by decide, by decide,
    by decide, by decide, by decide, ?_, ?_, ?_⟩
  · intro c h1 h2 h3 h4 h5 h6 h7 h8 h9
    simp [escapeChar, h1, h2, h3, h4, h5, h6, h7, h8, h9]
  · intro s ctx mq q acc i c hc hc2
    obtain ⟨h, hg⟩ := List.getElem?_eq_some_iff.mp hc
    obtain ⟨h2, hg2⟩ := List.getElem?_eq_some_iff.mp hc2
    rw [parseStringLoop, dif_pos h, if_pos hg, dif_pos h2, hg2]
  · exact parseString_err

/-- Witness for C6: the letter escape n yields a newline, an unknown escape
x is preserved as backslash-x, and a concrete scan steps over an escape by
appending the table output and advancing two places. -/
theorem claim_C6_witness :
    escapeChar 'n' = ['\n'] ∧ escapeChar 'x' = ['\\', 'x'] ∧
    parseStringLoop "\\n\"".toList [] false '"' [] 0 =
      parseStringLoop "\\n\"".toList [] false '"' ['\n'] 2 := by
  obtain ⟨_, _, _, _, _, _, h7, _, _, hother, hstep, _⟩ := claim_C6
  refine ⟨h7, ?_, ?_⟩
  · exact hother 'x' (by decide) (by decide) (by decide) (by decide)
      (by decide) (by decide) (by decide) (by decide) (by decide)
  · have h := hstep "\\n\"".toList [] false '"' [] 0 'n' (by decide) (by decide)
    simpa [escapeChar] using h

/-- Counterexample to C7 as stated: the scanned digit class is
unicode.IsDigit, not ASCII digits, so on the input 1 followed by the
Arabic-Indic digit two (U+0662) the captured run is both characters; the
int64 conversion then rejects the run and the parser returns it as a
string with the cursor advanced by two, where the claim predicts the
integer 1 with the cursor advanced by one. -/
theorem claim_C7_counterexample :
    parseNumber "1٢".toList 0 = (GoVal.str "1٢", none, 2) ∧
    parseNumber "1٢".toList 0 ≠ (GoVal.int 1, none, 1) := by
  have h : parseNumber "1٢".toList 0 = (GoVal.str "1٢", none, 2) := by
    simp [parseNumber, numLoop, numChar, isDigitGo, ndRanges, goParseInt64,
      asciiDigit, digitsToNat, String.toList]
  exact ⟨h, by rw [h]; simp⟩

/-- C7 (amended): the number parser consumes the maximal run of characters
that are Unicode digits (category Nd, wider than ASCII) or one of dot,
minus, e, E starting at the cursor; a run holding dot, e or E goes to the
64-bit float conversion and any other run to the 64-bit integer
conversion; a run the conversion rejects is returned unchanged as a string
instead of failing the parse, and no error is ever reported. -/
theorem claim_C7_amended (s : List Char) (i : Nat) :
    parseNumber s i = (numClassify ((s.drop i).takeWhile numChar), none,
      i + ((s.drop i).takeWhile numChar).length) ∧
    (∀ c, numChar c = true ↔ (isDigitGo c = true ∨ c = '.' ∨ c = '-' ∨
      c = 'e' ∨ c = 'E')) ∧
    (∀ run : List Char,
      (run.contains '.' ∨ run.contains 'e' ∨ run.contains 'E') →
      numClassify run = (match goParseFloat64 run with
        | some me => GoVal.float me.1 me.2
        | none => GoVal.str (String.mk run))) ∧
    (∀ run : List Char,
      ¬ (run.contains '.' ∨ run.contains 'e' ∨ run.contains 'E') →
      numClassify run = (match goParseInt64 run with
        | some n => GoVal.int n
        | none => GoVal.str (String.mk run))) := by
  refine ⟨parseNumber_eq s i, ?_, ?_, ?_⟩
  · intro c
    simp [numChar]
    tauto
  · intro run hmem
    rw [numClassify, if_pos hmem]
  · intro run hmem
    rw [numClassify, if_neg hmem]

/-- Witness for C7 (amended): a plain digit run stops at the first
non-number character and converts as an integer, and a run holding the
exponent letter alone is rejected by the float conversion and comes back
as a string. -/
theorem claim_C7_amended_witness :
    parseNumber "1x".toList 0 = (GoVal.int 1, none, 1) ∧
    numClassify ['e'] = GoVal.str "e" := by
  constructor
  · have h := (claim_C7_amended "1x".toList 0).1
    rw [h]
    simp [numClassify, numChar, isDigitGo, ndRanges, goParseInt64, asciiDigit,
      digitsToNat, String.toList]
  · have h := (claim_C7_amended [] 0).2.2.1 ['e'] (by simp)
    rw [h]
    simp [goParseFloat64, asciiDigit]

/-- C8: the dispatcher is total — in this development parseJSON is accepted
as a terminating function, and the theorem records why the Go loop
terminates: at end of input the dispatcher returns the no-value result with
the cursor at the whitespace-skipped position, a garbage character makes it
retry with the cursor strictly advanced one code point past that position,
and whenever a character is available the returned cursor strictly exceeds
the whitespace-skipped starting position. -/
theorem claim_C8 :
    (∀ (s : List Char) (ctx : List contextValue) (i : Nat),
      ¬ skipWhitespace s i < s.length →
      parseJSONv s ctx i = (GoVal.nil, none, skipWhitespace s i)) ∧
    (∀ (s : List Char) (ctx : List contextValue) (i : Nat) (c : Char),
      s[skipWhitespace s i]? = some c →
      ¬ (c = '"' ∨ c = '\'') → ¬ (isDigitGo c = true ∨ c = '-') →
      ¬ (c = 't' ∨ c = 'f' ∨ c = 'n') →
      (isLetterGo c = false ∨ ctx = []) → c ≠ '{' → c ≠ '[' →
      parseJSONv s ctx i = parseJSONv s ctx (skipWhitespace s i + 1)) ∧
    (∀ (s : List Char) (ctx : List contextValue) (i : Nat),
      skipWhitespace s i < s.length →
      skipWhitespace s i < (parseJSONv s ctx i).2.2) := by
  refine ⟨parseJSONv_eoi, parseJSONv_garbage, ?_⟩
  intro s ctx i hlt
  exact (parseJSON s ctx i).property.2.2 hlt

/-- Witness for C8: on an input whose only character is garbage the
dispatcher skips it, reaches end of input and returns the no-value result
with the cursor strictly advanced. -/
theorem claim_C8_witness :
    parseJSONv "!".toList [] 0 = (GoVal.nil, none, 1) ∧
    0 < (parseJSONv "!".toList [] 0).2.2 := by
  obtain ⟨heoi, hgarb, hadv⟩ := claim_C8
  have hskip0 : skipWhitespace "!".toList 0 = 0 := by
    simp [skipWhitespace, isSpaceGo, String.toList]
  have h1 : parseJSONv "!".toList [] 0 = parseJSONv "!".toList [] 1 := by
    have h := hgarb "!".toList [] 0 '!' (by rw [hskip0]; decide) (by decide)
      (by simp [isDigitGo, ndRanges]) (by decide) (Or.inl (by decide))
      (by decide) (by decide)
    rwa [hskip0] at h
  have h2 : parseJSONv "!".toList [] 1 = (GoVal.nil, none, 1) := by
    have hskip1 : skipWhitespace "!".toList 1 = 1 := by
      simp [skipWhitespace, isSpaceGo, String.toList]
    have h := heoi "!".toList [] 1 (by rw [hskip1]; decide)
    rwa [hskip1] at h
  refine ⟨h1.trans h2, ?_⟩
  have := hadv "!".toList [] 0 (by rw [hskip0]; decide)
  omega

/-- C9: the cursor never decreases across any operation of the parser —
whitespace skipping, the dispatcher, object and array parsing and their
loops, string, number and literal parsing, the string-scan and number-scan
loops, and the multi-value recovery loop each return a cursor greater than
or equal to the cursor they started from. -/
theorem claim_C9 :
    (∀ (s : List Char) (i : Nat), i ≤ skipWhitespace s i) ∧
    (∀ (s : List Char) (ctx : List contextValue) (i : Nat),
      i ≤ (parseJSONv s ctx i).2.2) ∧
    (∀ (s : List Char) (ctx : List contextValue) (i : Nat),
      i ≤ (parseObjectv s ctx i).2.2) ∧
    (∀ (s : List Char) (ctx : List contextValue) (i : Nat),
      i ≤ (parseArrayv s ctx i).2.2) ∧
    (∀ (s : List Char) (rest : List contextValue)
      (obj : List (String × GoVal)) (i : Nat),
      i ≤ (parseObjectLoopv s rest obj i).2) ∧
    (∀ (s : List Char) (rest : List contextValue) (arr : List GoVal) (i : Nat),
      i ≤ (parseArrayLoopv s rest arr i).2) ∧
    (∀ (s : List Char) (ctx : List contextValue) (i : Nat),
      i ≤ (parseString s ctx i).2.2) ∧
    (∀ (s : List Char) (i : Nat), i ≤ (parseNumber s i).2.2) ∧
    (∀ (s : List Char) (ctx : List contextValue) (i : Nat),
      i ≤ (parseBooleanOrNull s ctx i).2.2) ∧
    (∀ (s : List Char) (ctx : List contextValue) (mq : Bool) (q : Char)
      (acc : List Char) (i : Nat), i ≤ (parseStringLoop s ctx mq q acc i).2) ∧
    (∀ (s : List Char) (acc : List Char) (i : Nat), i ≤ (numLoop s acc i).2) ∧
    (∀ (s : List Char) (ctx : List contextValue) (res : List GoVal) (i : Nat),
      i ≤ (parseRest s ctx res i).2) :=
  ⟨skipWhitespace_le,
   fun s ctx i => (parseJSON s ctx i).property.1,
   fun s ctx i => (parseObject s ctx i).property.1,
   fun s ctx i => (parseArray s ctx i).property.1,
   fun s rest obj i => (parseObjectLoop s rest obj i).property,
   fun s rest arr i => (parseArrayLoop s rest arr i).property,
   parseString_le,
   parseNumber_le,
   parseBooleanOrNull_le,
   parseStringLoop_le,
   fun s acc i => by rw [numLoop_eq]; simp,
   parseRest_mono⟩

/-- C10: on any input from which the repair engine recovers no value at all
(the parser's result is the nil no-value interface — for instance the empty
string, whitespace-only input, or garbage-only input), provided the strict
decoder fails on it, Loads returns the nil value with no error, and Repair
returns the serialization of nil (the text null under the modelled
marshaller) with no error, rather than reporting an error or returning
empty output. -/
theorem claim_C10 (um : String → Option GoVal) (mi : GoVal → Option String)
    (s : String) (hnil : (Parse (NewParser s)).1 = GoVal.nil)
    (hum : um s = none) (hmi : mi GoVal.nil = some "null") :
    Loads um s = (GoVal.nil, none) ∧ Repair um mi s = ("null", none) := by
  have hP : Parse (NewParser s) = (GoVal.nil, none) := by
    have he := Parse_err_none (NewParser s)
    have hpair : Parse (NewParser s) =
        ((Parse (NewParser s)).1, (Parse (NewParser s)).2) := rfl
    rw [hpair, hnil, he]
  constructor
  · simp only [Loads, hum, hP]
  · simp only [Repair, hum, hP, hmi]

/-- Witness for C10: on a garbage-only input (three at-signs, from which the
parser recovers nothing) with a failing decoder and a marshaller sending nil
to null, Loads yields nil and Repair yields the text null, both without
error. -/
theorem claim_C10_witness :
    Loads (fun _ => none) "@@@" = (GoVal.nil, none) ∧
    Repair (fun _ => none) (fun _ => some "null") "@@@" = ("null", none) :=
  claim_C10 (fun _ => none) (fun _ => some "null") "@@@"
    (by simp [Parse, NewParser, parseJSONv_eoi, parseJSONv_garbage,
      skipWhitespace, isSpaceGo, isDigitGo, isLetterGo, ndRanges,
      String.toList])
    rfl rfl

end JsonRepair
